import Mathlib

/-!
# inipp: a verification development for `inipp.h`

A shallow embedding of the header-only INI library `inipp` (`src/inipp/inipp.h`)
and machine-checked statements about its operations `parse`, `generate` and
`interpolate`.

## Embedding

* `std::basic_string<CharT>` is `Str := List Char`; characters are compared by
  code point, as `char_traits<char>::lt` does.
* `std::map<String, T>` is an association list kept in strictly ascending key
  order (`Sorted`); `mapFind` is `std::map::find`, `mapUpdate` is
  `operator[]` followed by a write through the returned reference.
* An input stream is the text that is still unread; the loop
  `while (!is.eof()) std::getline(is, line)` visits `getlines text`.
* An output stream is the text written so far.
* Operations that can throw (`substr`) or are undefined on some input
  (`front`, `back`) return `Option`; `none` is the failing branch.
* The `while` loop of `replace` carries fuel; `none` is "fuel exhausted".
-/

namespace inipp

/-! ## Strings -/

/-- A string of the library: `std::basic_string<CharT>`. -/
abbrev Str := List Char

/-- The predicate `std::isspace` in the "C" locale: space and `\t \n \v \f \r`
(code points 32 and 9 to 13); no other character is whitespace. -/
def isspace (c : Char) : Bool :=
  c.toNat == 32 || (9 ≤ c.toNat && c.toNat ≤ 13)

/-- Source `ltrim`: erase from the beginning up to the first non-space character. -/
def ltrim (s : Str) : Str :=
  s.dropWhile isspace

/-- Source `rtrim`: erase from just after the last non-space character to the end
(the search runs over the reversed string). -/
def rtrim (s : Str) : Str :=
  (s.reverse.dropWhile isspace).reverse

/-- Member `std::string::find(from_, pos)`: the lowest position `p ≥ pos` at which
`from_` occurs in the string, `none` for `npos`. -/
def find (from_ : Str) : Str → Nat → Option Nat
  | [], pos => if pos = 0 ∧ from_ = [] then some 0 else none
  | c :: t, 0 => if from_.isPrefixOf (c :: t) then some 0 else (find from_ t 0).map (· + 1)
  | _ :: t, pos + 1 => (find from_ t pos).map (· + 1)

/-- Member `std::string::find_first_of(c)`: the position of the first `c`. -/
def find_first_of (c : Char) : Str → Option Nat
  | [] => none
  | d :: t => if d = c then some 0 else (find_first_of c t).map (· + 1)

/-- Member `std::string::substr(pos, n)`: throws `std::out_of_range` (here `none`)
when `pos > size()`, otherwise the characters `[pos, min (pos + n) size)`. -/
def substr (s : Str) (pos n : Nat) : Option Str :=
  if pos ≤ s.length then some ((s.drop pos).take n) else none

/-- Member `std::string::front()`: undefined (here `none`) on the empty string. -/
def front (s : Str) : Option Char := s.head?

/-- Member `std::string::back()`: undefined (here `none`) on the empty string. -/
def back (s : Str) : Option Char := s.getLast?

/-- One run of the `while` loop of source `replace`, with fuel: look for `from_`
starting at `start_pos`; when found at `p`, `str.replace(p, from_.length(), to_)` and
continue the search at `p + to_.length()`. -/
def replaceLoop (from_ to_ : Str) : Nat → Str → Nat → Option Str
  | 0, _, _ => none
  | fuel + 1, str, start_pos =>
    match find from_ str start_pos with
    | none => some str
    | some p =>
      replaceLoop from_ to_ fuel (str.take p ++ to_ ++ str.drop (p + from_.length))
        (p + to_.length)

/-- Source `replace(str, from, to)`: the loop started at `start_pos = 0`. Every
iteration consumes at least one character of the original string when `from_` is
non-empty, so `str.length + 1` rounds are enough. -/
def replace (str from_ to_ : Str) : Option Str :=
  replaceLoop from_ to_ (str.length + 1) str 0

/-! ## Ordered maps -/

/-- Comparison `std::less<String>`: lexicographic order by code point, a proper
prefix being smaller. -/
def strLt : Str → Str → Bool
  | [], [] => false
  | [], _ :: _ => true
  | _ :: _, [] => false
  | a :: as, b :: bs => decide (a < b) || (a == b && strLt as bs)

/-- Member `std::map::find`: the value stored under `k`, if any. -/
def mapFind {β : Type} (k : Str) : List (Str × β) → Option β
  | [] => none
  | (k', v) :: rest => if k = k' then some v else mapFind k rest

/-- Expression `m[k] = f (m[k])`: `operator[]` inserts the value-initialised `d`
at the ordered position of `k` when the key is absent, then the entry is
rewritten by `f`. -/
def mapUpdate {β : Type} (d : β) (f : β → β) (k : Str) : List (Str × β) → List (Str × β)
  | [] => [(k, f d)]
  | (k', v) :: rest =>
    if strLt k k' then (k, f d) :: (k', v) :: rest
    else if strLt k' k then (k', v) :: mapUpdate d f k rest
    else (k', f v) :: rest

/-- Keys in strictly ascending order: the iteration order of a `std::map`. -/
def Sorted {β : Type} (m : List (Str × β)) : Prop :=
  m.Pairwise (fun a b => strLt a.1 b.1 = true)

/-! ## The store -/

/-- Type `Ini::Section`. -/
abbrev Section := List (Str × Str)

/-- Type `Ini::Sections`. -/
abbrev Sections := List (Str × Section)

/-- Class `Ini<CharT>`: the section mapping and the list of rejected lines. -/
structure Ini where
  sections : Sections
  errors : List Str
  deriving DecidableEq, Repr

def char_section_start : Char := '['
def char_section_end : Char := ']'
def char_assign : Char := '='
def char_comment : Char := ';'
def char_interpol : Char := '%'
def char_interpol_start : Char := '('
def char_interpol_end : Char := ')'
def default_section_name : Str := "DEFAULT".toList

/-- Constructor `Ini()`: no section, no error. -/
def Ini.empty : Ini := ⟨[], []⟩

/-- A store as the class can hold it: section names ascending, keys of every
section ascending. -/
def Ini.WF (ini : Ini) : Prop :=
  Sorted ini.sections ∧ ∀ sec ∈ ini.sections, Sorted sec.2

/-- Value of `sections[s][k]` read without inserting: `none` when absent. -/
def Ini.get (ini : Ini) (s k : Str) : Option Str :=
  (mapFind s ini.sections).bind (mapFind k)

/-! ## generate -/

/-- Inner loop of `generate`: one `key=value` line per pair of the section. -/
def generateValues (os : Str) (sec : Section) : Str :=
  sec.foldl (fun os val => os ++ val.1 ++ [char_assign] ++ val.2 ++ ['\n']) os

/-- Source `Ini::generate`: for every section a `[name]` line and its pairs.
Returns the store (the member function is not `const`) and the stream. -/
def generate (ini : Ini) (os : Str) : Ini × Str :=
  (ini, ini.sections.foldl
    (fun os sec =>
      generateValues (os ++ [char_section_start] ++ sec.1 ++ [char_section_end] ++ ['\n']) sec.2)
    os)

/-! ## parse -/

/-- The lines that the loop `while (!is.eof()) std::getline(is, line)` reads from
a stream holding `text`: the pieces between newlines, the last one (possibly
empty) ended by end-of-file. -/
def getlines : Str → List Str
  | [] => [[]]
  | c :: rest =>
    if c = '\n' then [] :: getlines rest
    else match getlines rest with
      | l :: ls => (c :: l) :: ls
      | [] => [[c]]

/-- Body of the loop of `Ini::parse` for one line read by `getline`; the state is
the store and the local variable `section`. -/
def parseLine (ini : Ini) (section_ : Str) (raw : Str) : Option (Ini × Str) :=
  let line := rtrim (ltrim raw)
  let length := line.length
  if length > 0 then do
    let pos := find_first_of char_assign line
    let fr ← front line
    if fr = char_comment then
      pure (ini, section_)
    else if fr = char_section_start then do
      let bk ← back line
      if bk = char_section_end then do
        -- `length - 2` is a `size_t`; the branch is entered with `length ≥ 2` only
        let name ← substr line 1 (length - 2)
        pure (ini, name)
      else
        pure (ini, section_)
    else
      match pos with
      | some p => do
        let variable_ ← substr line 0 p
        let value ← substr line (p + 1) length
        pure ({ ini with
                sections := mapUpdate [] (mapUpdate [] (fun _ => ltrim value) (rtrim variable_))
                  section_ ini.sections },
              section_)
      | none =>
        pure ({ ini with errors := ini.errors ++ [line] }, section_)
  else
    pure (ini, section_)

/-- The loop of `Ini::parse` over the lines of the stream. -/
def parseLines (ini : Ini) (section_ : Str) : List Str → Option (Ini × Str)
  | [] => some (ini, section_)
  | raw :: rest =>
    match parseLine ini section_ raw with
    | none => none
    | some (ini', section_') => parseLines ini' section_' rest

/-- Source `Ini::parse`: `section` starts empty, every line of the stream is
processed, the store is the result. -/
def parse (ini : Ini) (text : Str) : Option Ini :=
  (parseLines ini [] (getlines text)).map Prod.fst

/-! ## interpolate -/

/-- The token `%(key)` built by `char_interpol + (char_interpol_start + key +
char_interpol_end)`. -/
def token (key : Str) : Str :=
  char_interpol :: (char_interpol_start :: key ++ [char_interpol_end])

/-- Inner loop of `interpolate(src, dst)` for one source pair: every pair of `dst`
that differs from `srcval` (as a key/value pair) gets the token replaced. -/
def interpolateInner (srcval : Str × Str) : Section → Option Section
  | [] => some []
  | val :: rest =>
    if val ≠ srcval then
      match replace val.2 (token srcval.1) srcval.2 with
      | none => none
      | some v =>
        match interpolateInner srcval rest with
        | none => none
        | some rest' => some ((val.1, v) :: rest')
    else
      match interpolateInner srcval rest with
      | none => none
      | some rest' => some (val :: rest')

/-- Source `interpolate(src, dst)` when `src` and `dst` are different sections:
`src` is read only. -/
def interpolateFrom : Section → Section → Option Section
  | [], dst => some dst
  | srcval :: src, dst =>
    match interpolateInner srcval dst with
    | none => none
    | some dst' => interpolateFrom src dst'

/-- Source `interpolate(sec, sec)`: source and destination are the same object,
so the `i`-th source pair is read from the section as rewritten so far. -/
def interpolateSelfAux : Nat → Nat → Section → Option Section
  | 0, _, sec => some sec
  | n + 1, i, sec =>
    match sec.get? i with
    | none => some sec
    | some srcval =>
      match interpolateInner srcval sec with
      | none => none
      | some sec' => interpolateSelfAux n (i + 1) sec'

/-- Self-substitution of one section. -/
def interpolateSelf (sec : Section) : Option Section :=
  interpolateSelfAux sec.length 0 sec

/-- Assignment through the iterator `defsec`: the section stored under `k` is
replaced, keys untouched. -/
def mapSet {β : Type} (k : Str) (v : β) : List (Str × β) → List (Str × β)
  | [] => []
  | (k', w) :: rest => if k = k' then (k', v) :: rest else (k', w) :: mapSet k v rest

/-- The `for (auto & sec : sections)` loop of `interpolate()`; `defsec` is the
default section after its own pass, when there is one. -/
def interpolateSections (defsec : Option Section) : Sections → Option Sections
  | [] => some []
  | sec :: rest =>
    if sec.1 ≠ default_section_name then
      match interpolateSelf sec.2 with
      | none => none
      | some s1 =>
        match (match defsec with
               | some d => interpolateFrom d s1
               | none => some s1) with
        | none => none
        | some s2 =>
          match interpolateSections defsec rest with
          | none => none
          | some rest' => some ((sec.1, s2) :: rest')
    else
      match interpolateSections defsec rest with
      | none => none
      | some rest' => some (sec :: rest')

/-- Source `Ini::interpolate()`. -/
def interpolate (ini : Ini) : Option Ini :=
  match mapFind default_section_name ini.sections with
  | some d =>
    match interpolateSelf d with
    | none => none
    | some d' =>
      match interpolateSections (some d') (mapSet default_section_name d' ini.sections) with
      | none => none
      | some secs => some { ini with sections := secs }
  | none =>
    match interpolateSections none ini.sections with
    | none => none
    | some secs => some { ini with sections := secs }

/-- Source `Ini::clear()`. -/
def clear (_ini : Ini) : Ini := ⟨[], []⟩

/-! ## The line grammar, in the words of the specification -/

/-- Whole-line trim applied by `parse` before classification. -/
def trim (s : Str) : Str := rtrim (ltrim s)

/-- Key of an assignment line: the text before the first `=`, right-trimmed. -/
def keyOf (line : Str) : Str :=
  rtrim (line.takeWhile (fun c => c != char_assign))

/-- Value of an assignment line: the text after the first `=`, left-trimmed. -/
def valueOf (line : Str) : Str :=
  ltrim ((line.dropWhile (fun c => c != char_assign)).drop 1)

/-- Name of a section line: the text between the first and the last character. -/
def headerName (line : Str) : Str :=
  (line.drop 1).dropLast

/-- The kinds of line of the input format. -/
inductive LineKind where
  | blank
  | comment
  | header (name : Str)
  | badHeader
  | assignment (key value : Str)
  | error (line : Str)
  deriving DecidableEq, Repr

/-- Classification of a raw line by the grammar of the input format. -/
def classify (raw : Str) : LineKind :=
  let line := trim raw
  match line with
  | [] => .blank
  | c :: _ =>
    if c = char_comment then .comment
    else if c = char_section_start then
      (if line.getLast? = some char_section_end then .header (headerName line) else .badHeader)
    else if char_assign ∈ line then .assignment (keyOf line) (valueOf line)
    else .error line

/-- Effect of a classified line on the store and on the current section. -/
def applyLine (st : Ini × Str) : LineKind → Ini × Str
  | .blank => st
  | .comment => st
  | .badHeader => st
  | .header name => (st.1, name)
  | .assignment key value =>
    ({ st.1 with
       sections := mapUpdate [] (mapUpdate [] (fun _ => value) key) st.2 st.1.sections },
     st.2)
  | .error line => ({ st.1 with errors := st.1.errors ++ [line] }, st.2)

/-- Effect of a sequence of raw lines. -/
def applyLines (st : Ini × Str) (raws : List Str) : Ini × Str :=
  raws.foldl (fun st raw => applyLine st (classify raw)) st

/-- A string without leading and without trailing whitespace. -/
def Trimmed (s : Str) : Prop :=
  (∀ c, s.head? = some c → isspace c = false) ∧ (∀ c, s.getLast? = some c → isspace c = false)

/-- A trimmed line that `parse` records as an error: non-empty, beginning with
neither `;` nor `[`, and without `=`. -/
def isErrorLine (line : Str) : Bool :=
  line != [] && line.head? != some char_comment && line.head? != some char_section_start
    && !line.contains char_assign

/-! ## The output format, in the words of the specification -/

/-- Lines of one section: the `[name]` line, then one `key=value` line per pair in
the order of the section. -/
def sectionLines (sec : Str × Section) : List Str :=
  (char_section_start :: sec.1 ++ [char_section_end])
    :: sec.2.map (fun val => val.1 ++ char_assign :: val.2)

/-- Lines of a store: the lines of its sections in the order of the mapping. -/
def storeLines (ini : Ini) : List Str :=
  ini.sections.flatMap sectionLines

/-- Text made of the given lines, each one terminated by a newline. -/
def unlines (ls : List Str) : Str :=
  ls.flatMap (fun l => l ++ ['\n'])

/-! ## Substitution, in the words of the specification -/

/-- Scan of `replaceAll`: `skip` characters still belong to the occurrence just
replaced; otherwise an occurrence of `from_` starting here is replaced by `to_`
and the scan resumes after it. -/
def replaceAllAux (from_ to_ : Str) : Nat → Str → Str
  | _, [] => []
  | skip + 1, _ :: t => replaceAllAux from_ to_ skip t
  | 0, c :: t =>
    if from_.isPrefixOf (c :: t) then to_ ++ replaceAllAux from_ to_ (from_.length - 1) t
    else c :: replaceAllAux from_ to_ 0 t

/-- The string `str` with every occurrence of the non-empty literal `from_`, taken
from left to right without overlap, replaced by `to_`; inserted text is not
scanned again. -/
def replaceAll (from_ to_ str : Str) : Str :=
  replaceAllAux from_ to_ 0 str

/-- One destination pair after substitution by one source pair: the pair itself
is skipped, any other pair gets every `%(key)` of the source replaced by the
source value. -/
def substPair (srcval val : Str × Str) : Str × Str :=
  if val ≠ srcval then (val.1, replaceAll (token srcval.1) srcval.2 val.2) else val

/-- A section after substitution by one source pair. -/
def substInner (srcval : Str × Str) (dst : Section) : Section :=
  dst.map (substPair srcval)

/-- A section after substitution by the pairs of another section, in order. -/
def substFrom (src dst : Section) : Section :=
  src.foldl (fun d srcval => substInner srcval d) dst

/-- Self-substitution from position `i` on, for at most `n` pairs: the source pair
is the current one at that position. -/
def substSelfAux : Nat → Nat → Section → Section
  | 0, _, sec => sec
  | n + 1, i, sec =>
    match sec.get? i with
    | none => sec
    | some srcval => substSelfAux n (i + 1) (substInner srcval sec)

/-- Self-substitution of a section. -/
def substSelf (sec : Section) : Section :=
  substSelfAux sec.length 0 sec

/-- Shape of every key/value pair that `parse` stores from a line: both trimmed,
no `=` in the key, the key not beginning with `;` or `[`, no newline. -/
def ParsedPair (k v : Str) : Prop :=
  Trimmed k ∧ Trimmed v ∧ char_assign ∉ k ∧ k.head? ≠ some char_comment ∧
    k.head? ≠ some char_section_start ∧ '\n' ∉ k ∧ '\n' ∉ v

/-! ## extract -/

/-- Formatted input `is >> std::boolalpha >> dst` for a `bool` destination, "C"
locale; `is` is the unread text of the string stream. The sentry skips leading
whitespace and fails at the end of the input, leaving `dst` as it was; then
the input is matched with the names `true` and `false`; when neither matches,
`false` is stored and the extraction fails. Returns the success of the
extraction, the destination and the text left unread. -/
def istream_bool (is : Str) (dst : Bool) : Bool × Bool × Str :=
  match is.dropWhile isspace with
  | [] => (false, dst, [])
  | c :: t =>
    if "true".toList.isPrefixOf (c :: t) then (true, true, (c :: t).drop 4)
    else if "false".toList.isPrefixOf (c :: t) then (true, false, (c :: t).drop 5)
    else (false, false, c :: t)

/-- Formatted input `is >> dst` for an `int` destination (32 bits, decimal): after
the sentry, an optional sign and the longest run of digits are read; with no
digit `0` is stored and the extraction fails; a value out of range stores the
nearest bound and fails. -/
def istream_int (is : Str) (dst : Int) : Bool × Int × Str :=
  match is.dropWhile isspace with
  | [] => (false, dst, [])
  | c :: t =>
    let body := if c = '-' ∨ c = '+' then t else c :: t
    let digits := body.takeWhile Char.isDigit
    let rest := body.dropWhile Char.isDigit
    if digits = [] then (false, 0, rest)
    else
      let n : Int := digits.foldl (fun acc d => 10 * acc + ((d.toNat : Int) - 48)) 0
      let v : Int := if c = '-' then -n else n
      if v < -2147483648 then (false, -2147483648, rest)
      else if 2147483647 < v then (false, 2147483647, rest)
      else (true, v, rest)

/-- Formatted input `is >> c` for a character: after the sentry, the next
character; fails at the end of the input. -/
def istream_char (is : Str) : Option Char × Str :=
  match is.dropWhile isspace with
  | [] => (none, [])
  | c :: t => (some c, t)

/-- Source `extract(value, dst)`, the generic overload:
`is >> std::boolalpha >> dst && !(is >> c)` on a string stream holding `value`;
`shr` is the `operator>>` of the destination type. Returns the result and the
destination. -/
def extract {T : Type} (shr : Str → T → Bool × T × Str) (value : Str) (dst : T) : Bool × T :=
  match shr value dst with
  | (true, dst', rest) => ((istream_char rest).1.isNone, dst')
  | (false, dst', _) => (false, dst')

/-- Source `extract(value, dst)`, the overload for a string destination:
`dst = value; return true`. -/
def extract_string (value _dst : Str) : Bool × Str :=
  (true, value)

/-! ## The embedding on concrete inputs -/

theorem parse_assignment_example : parse Ini.empty "  a = b=c ; x  ".toList
    = some ⟨[([], [("a".toList, "b=c ; x".toList)])], []⟩ := by decide

theorem parse_incomplete_header_example :
    (parse Ini.empty "[s]\n[incomplete\nk=v".toList).map (fun i => i.get "s".toList "k".toList)
    = some (some "v".toList) := by decide

theorem interpolate_host_example : interpolate ⟨[("DEFAULT".toList,
      [("host".toList, "x".toList), ("url".toList, "http://%(host)/path".toList)])], []⟩
    = some ⟨[("DEFAULT".toList,
      [("host".toList, "x".toList), ("url".toList, "http://x/path".toList)])], []⟩ := by decide

/-! ## The order on strings -/

theorem strLt_irrefl (a : Str) : strLt a a = false := by
  induction a with
  | nil => rfl
  | cons c t ih => simp [strLt, ih]

theorem strLt_trans {a b c : Str} (h1 : strLt a b = true) (h2 : strLt b c = true) :
    strLt a c = true := by
  induction a generalizing b c with
  | nil =>
    cases b with
    | nil => simp [strLt] at h1
    | cons y b =>
      cases c with
      | nil => simp [strLt] at h2
      | cons z c => simp [strLt]
  | cons x a ih =>
    cases b with
    | nil => simp [strLt] at h1
    | cons y b =>
      cases c with
      | nil => simp [strLt] at h2
      | cons z c =>
        simp only [strLt, Bool.or_eq_true, decide_eq_true_eq, Bool.and_eq_true, beq_iff_eq] at h1 h2 ⊢
        rcases h1 with h1 | ⟨rfl, h1⟩
        · rcases h2 with h2 | ⟨rfl, h2⟩
          · exact Or.inl (lt_trans h1 h2)
          · exact Or.inl h1
        · rcases h2 with h2 | ⟨rfl, h2⟩
          · exact Or.inl h2
          · exact Or.inr ⟨rfl, ih h1 h2⟩

theorem strLt_total {a b : Str} (h1 : strLt a b = false) (h2 : strLt b a = false) :
    a = b := by
  induction a generalizing b with
  | nil =>
    cases b with
    | nil => rfl
    | cons y b => simp [strLt] at h1
  | cons x a ih =>
    cases b with
    | nil => simp [strLt] at h2
    | cons y b =>
      simp only [strLt, Bool.or_eq_false_iff, decide_eq_false_iff_not, Bool.and_eq_false_imp, beq_iff_eq] at h1 h2
      have hxy : x = y := le_antisymm (not_lt.mp h2.1) (not_lt.mp h1.1)
      subst hxy
      rw [ih (h1.2 rfl) (h2.2 rfl)]

theorem strLt_asymm {a b : Str} (h : strLt a b = true) : strLt b a = false := by
  by_contra h'
  have := strLt_trans h (by simpa using h')
  simp [strLt_irrefl] at this

theorem strLt_ne {a b : Str} (h : strLt a b = true) : a ≠ b := by
  rintro rfl
  simp [strLt_irrefl] at h

theorem mapFind_eq_none_of_lt {β : Type} {k : Str} {m : List (Str × β)}
    (h : ∀ x ∈ m, strLt k x.1 = true) : mapFind k m = none := by
  induction m with
  | nil => rfl
  | cons x rest ih =>
    obtain ⟨k', v⟩ := x
    have h1 : k ≠ k' := strLt_ne (h (k', v) (List.mem_cons_self _ _))
    simp only [mapFind, h1, if_false]
    exact ih (fun y hy => h y (List.mem_cons_of_mem _ hy))

theorem mapFind_mapUpdate_ne {β : Type} (d : β) (f : β → β) {k k' : Str} (h : k' ≠ k)
    (m : List (Str × β)) : mapFind k' (mapUpdate d f k m) = mapFind k' m := by
  induction m with
  | nil => simp [mapUpdate, mapFind, h]
  | cons x rest ih =>
    obtain ⟨k1, v⟩ := x
    simp only [mapUpdate]
    split_ifs with h1 h2
    · simp [mapFind, h]
    · simp only [mapFind, ih]
    · have : k = k1 := strLt_total (by simpa using h1) (by simpa using h2)
      subst this
      simp [mapFind, h]

theorem mapFind_mapUpdate_self {β : Type} (d : β) (f : β → β) (k : Str)
    {m : List (Str × β)} (hs : Sorted m) :
    mapFind k (mapUpdate d f k m) = some (f ((mapFind k m).getD d)) := by
  induction m with
  | nil => simp [mapUpdate, mapFind]
  | cons x rest ih =>
    obtain ⟨k1, v⟩ := x
    have hs' := List.pairwise_cons.mp hs
    simp only [mapUpdate]
    split_ifs with h1 h2
    · have hn : mapFind k ((k1, v) :: rest) = none := by
        apply mapFind_eq_none_of_lt
        intro y hy
        rcases List.mem_cons.mp hy with rfl | hy
        · exact h1
        · exact strLt_trans h1 (hs'.1 y hy)
      rw [hn]
      simp [mapFind]
    · have hne : k ≠ k1 := (strLt_ne h2).symm
      simp only [mapFind, hne, if_false]
      exact ih hs'.2
    · have : k = k1 := strLt_total (by simpa using h1) (by simpa using h2)
      subst this
      simp [mapFind]

theorem mem_mapUpdate {β : Type} {d : β} {f : β → β} {k : Str} {m : List (Str × β)}
    {x : Str × β} (hx : x ∈ mapUpdate d f k m) : x.1 = k ∨ x ∈ m := by
  induction m with
  | nil =>
    simp only [mapUpdate, List.mem_singleton] at hx
    exact Or.inl (by rw [hx])
  | cons y rest ih =>
    obtain ⟨k1, v⟩ := y
    simp only [mapUpdate] at hx
    split_ifs at hx with h1 h2
    · rcases List.mem_cons.mp hx with rfl | hx
      · exact Or.inl rfl
      · exact Or.inr hx
    · rcases List.mem_cons.mp hx with rfl | hx
      · exact Or.inr (List.mem_cons_self _ _)
      · rcases ih hx with h | h
        · exact Or.inl h
        · exact Or.inr (List.mem_cons_of_mem _ h)
    · have : k = k1 := strLt_total (by simpa using h1) (by simpa using h2)
      rcases List.mem_cons.mp hx with rfl | hx
      · exact Or.inl this.symm
      · exact Or.inr (List.mem_cons_of_mem _ hx)

theorem sorted_mapUpdate {β : Type} (d : β) (f : β → β) (k : Str)
    {m : List (Str × β)} (hs : Sorted m) : Sorted (mapUpdate d f k m) := by
  induction m with
  | nil => simp [mapUpdate, Sorted]
  | cons x rest ih =>
    obtain ⟨k1, v⟩ := x
    have hs' := List.pairwise_cons.mp hs
    simp only [mapUpdate]
    split_ifs with h1 h2
    · refine List.pairwise_cons.mpr ⟨?_, hs⟩
      intro y hy
      rcases List.mem_cons.mp hy with rfl | hy
      · exact h1
      · exact strLt_trans h1 (hs'.1 y hy)
    · refine List.pairwise_cons.mpr ⟨?_, ih hs'.2⟩
      intro y hy
      rcases mem_mapUpdate hy with h | h
      · rw [h]; exact h2
      · exact hs'.1 y h
    · exact List.pairwise_cons.mpr ⟨hs'.1, hs'.2⟩

/-! ## String primitives -/

theorem find_first_of_eq_none {c : Char} {l : Str} :
    find_first_of c l = none ↔ c ∉ l := by
  induction l with
  | nil => simp [find_first_of]
  | cons d t ih =>
    simp only [find_first_of]
    by_cases h : d = c
    · simp [h]
    · simp only [h, if_false, Option.map_eq_none', ih, List.mem_cons, not_or]
      exact ⟨fun h' => ⟨fun e => h e.symm, h'⟩, fun h' => h'.2⟩

theorem find_first_of_eq_some {c : Char} {l : Str} {p : Nat}
    (h : find_first_of c l = some p) :
    p < l.length ∧ l.take p = l.takeWhile (fun x => x != c) ∧
      l.drop (p + 1) = (l.dropWhile (fun x => x != c)).drop 1 := by
  induction l generalizing p with
  | nil => simp [find_first_of] at h
  | cons d t ih =>
    simp only [find_first_of] at h
    by_cases hd : d = c
    · simp only [hd, if_true, Option.some.injEq] at h
      subst h
      simp [hd, List.takeWhile, List.dropWhile]
    · simp only [hd, if_false, Option.map_eq_some'] at h
      obtain ⟨q, hq, rfl⟩ := h
      obtain ⟨h1, h2, h3⟩ := ih hq
      have hd' : (d != c) = true := by simpa using hd
      refine ⟨by simpa using h1, ?_, ?_⟩
      · simp [List.takeWhile, hd', h2]
      · simp [List.dropWhile, hd', h3]

theorem substr_eq_some {s : Str} {pos : Nat} (n : Nat) (h : pos ≤ s.length) :
    substr s pos n = some ((s.drop pos).take n) := by
  simp [substr, h]

theorem parseLine_eq (ini : Ini) (section_ raw : Str) :
    parseLine ini section_ raw = some (applyLine (ini, section_) (classify raw)) := by
  unfold parseLine classify trim
  cases hline : rtrim (ltrim raw) with
  | nil => simp [applyLine]
  | cons c t =>
    simp only [List.length_cons, gt_iff_lt, Nat.zero_lt_succ, if_true, front, List.head?_cons,
      Option.bind_eq_bind, Option.some_bind, Option.pure_def, back]
    by_cases hc : c = char_comment
    · simp [hc, applyLine]
    · simp only [hc, if_false]
      by_cases hs : c = char_section_start
      · simp only [hs, if_true]
        cases hb : (char_section_start :: t).getLast? with
        | none => simp at hb
        | some b =>
          simp only [Option.some_bind, Option.some.injEq]
          by_cases hbe : b = char_section_end
          · have ht : t ≠ [] := by
              rintro rfl
              simp at hb
              rw [← hb] at hbe
              exact absurd hbe (by decide)
            simp only [hbe, if_true, applyLine, headerName]
            rw [substr_eq_some _ (by simp)]
            simp [List.dropLast_eq_take]
          · simp [hbe, applyLine]
      · simp only [hs, if_false]
        cases hp : find_first_of char_assign (c :: t) with
        | none =>
          have := find_first_of_eq_none.mp hp
          simp [this, applyLine]
        | some p =>
          obtain ⟨h1, h2, h3⟩ := find_first_of_eq_some hp
          have hmem : char_assign ∈ c :: t := by
            by_contra hm
            rw [find_first_of_eq_none.mpr hm] at hp
            cases hp
          have e1 : substr (c :: t) 0 p = some ((c :: t).takeWhile (fun x => x != char_assign)) := by
            rw [substr_eq_some _ (Nat.zero_le _), List.drop_zero, h2]
          have e2 : substr (c :: t) (p + 1) (t.length + 1)
              = some (((c :: t).dropWhile (fun x => x != char_assign)).drop 1) := by
            rw [substr_eq_some _ (by exact h1), h3]
            rw [List.take_of_length_le]
            rw [← h3]
            simp only [List.length_drop, List.length_cons]
            omega
          simp only [e1, e2, hmem, if_true, applyLine, keyOf, valueOf, Option.some_bind]

theorem parseLines_eq (ini : Ini) (section_ : Str) (raws : List Str) :
    parseLines ini section_ raws = some (applyLines (ini, section_) raws) := by
  induction raws generalizing ini section_ with
  | nil => rfl
  | cons raw rest ih =>
    simp only [parseLines, parseLine_eq, applyLines, List.foldl_cons]
    exact ih _ _

theorem parse_eq (ini : Ini) (text : Str) :
    parse ini text = some (applyLines (ini, []) (getlines text)).1 := by
  simp [parse, parseLines_eq]

theorem applyLines_append (st : Ini × Str) (a b : List Str) :
    applyLines st (a ++ b) = applyLines (applyLines st a) b := by
  simp [applyLines, List.foldl_append]

theorem applyLines_cons (st : Ini × Str) (a : Str) (b : List Str) :
    applyLines st (a :: b) = applyLines (applyLine st (classify a)) b := rfl

theorem applyLines_nil (st : Ini × Str) : applyLines st [] = st := rfl

/-! ## Lines of a text -/

theorem getlines_ne_nil (t : Str) : getlines t ≠ [] := by
  cases t with
  | nil => simp [getlines]
  | cons c rest =>
    simp only [getlines]
    split_ifs
    · simp
    · split <;> simp

theorem getlines_of_not_mem {l : Str} (h : '\n' ∉ l) : getlines l = [l] := by
  induction l with
  | nil => rfl
  | cons c t ih =>
    simp only [List.mem_cons, not_or] at h
    have hc : c ≠ '\n' := fun e => h.1 e.symm
    simp [getlines, hc, ih h.2]

theorem getlines_line_newline {l : Str} (h : '\n' ∉ l) (t : Str) :
    getlines (l ++ '\n' :: t) = l :: getlines t := by
  induction l with
  | nil => simp [getlines]
  | cons c r ih =>
    simp only [List.mem_cons, not_or] at h
    have hc : c ≠ '\n' := fun e => h.1 e.symm
    simp [getlines, hc, ih h.2]

theorem getlines_append_newline (a b : Str) :
    getlines (a ++ '\n' :: b) = getlines a ++ getlines b := by
  induction a with
  | nil => simp [getlines]
  | cons c r ih =>
    simp only [List.cons_append, getlines]
    split_ifs with hc
    · simp [ih]
    · have ih' : getlines (r.append ('\n' :: b)) = getlines r ++ getlines b := ih
      rw [ih']
      cases hg : getlines r with
      | nil => exact absurd hg (getlines_ne_nil r)
      | cons l ls => simp

theorem not_mem_of_mem_getlines {t l : Str} (h : l ∈ getlines t) : '\n' ∉ l := by
  induction t generalizing l with
  | nil =>
    simp only [getlines, List.mem_singleton] at h
    subst h
    simp
  | cons c r ih =>
    simp only [getlines] at h
    split_ifs at h with hc
    · rcases List.mem_cons.mp h with rfl | h
      · simp
      · exact ih h
    · cases hg : getlines r with
      | nil => exact absurd hg (getlines_ne_nil r)
      | cons l0 ls =>
        rw [hg] at h
        simp only [List.mem_cons] at h
        rcases h with rfl | h
        · have := ih (l := l0) (by rw [hg]; exact List.mem_cons_self _ _)
          simp only [List.mem_cons, not_or]
          exact ⟨fun e => hc e.symm, this⟩
        · exact ih (by rw [hg]; exact List.mem_cons_of_mem _ h)

/-! ## Well-formed stores -/

theorem mem_mapUpdate_cases {β : Type} {d : β} {f : β → β} {k : Str} {m : List (Str × β)}
    {x : Str × β} (hx : x ∈ mapUpdate d f k m) :
    x ∈ m ∨ x = (k, f d) ∨ ∃ v, (k, v) ∈ m ∧ x = (k, f v) := by
  induction m with
  | nil =>
    simp only [mapUpdate, List.mem_singleton] at hx
    exact Or.inr (Or.inl hx)
  | cons y rest ih =>
    obtain ⟨k1, v⟩ := y
    simp only [mapUpdate] at hx
    split_ifs at hx with h1 h2
    · rcases List.mem_cons.mp hx with rfl | hx
      · exact Or.inr (Or.inl rfl)
      · exact Or.inl hx
    · rcases List.mem_cons.mp hx with rfl | hx
      · exact Or.inl (List.mem_cons_self _ _)
      · rcases ih hx with h | h | ⟨w, hw, h⟩
        · exact Or.inl (List.mem_cons_of_mem _ h)
        · exact Or.inr (Or.inl h)
        · exact Or.inr (Or.inr ⟨w, List.mem_cons_of_mem _ hw, h⟩)
    · have : k = k1 := strLt_total (by simpa using h1) (by simpa using h2)
      subst this
      rcases List.mem_cons.mp hx with rfl | hx
      · exact Or.inr (Or.inr ⟨v, List.mem_cons_self _ _, rfl⟩)
      · exact Or.inl (List.mem_cons_of_mem _ hx)

theorem wf_empty : Ini.empty.WF := by
  simp [Ini.WF, Ini.empty, Sorted]

theorem wf_applyLine {st : Ini × Str} (h : st.1.WF) (k : LineKind) : (applyLine st k).1.WF := by
  cases k with
  | blank => exact h
  | comment => exact h
  | badHeader => exact h
  | header name => exact h
  | error line => exact h
  | assignment key value =>
    refine ⟨sorted_mapUpdate _ _ _ h.1, ?_⟩
    intro sec hsec
    rcases mem_mapUpdate_cases hsec with h1 | h1 | ⟨v, hv, h1⟩
    · exact h.2 sec h1
    · rw [h1]; simp [mapUpdate, Sorted]
    · rw [h1]; exact sorted_mapUpdate _ _ _ (h.2 _ hv)

theorem wf_applyLines {st : Ini × Str} (h : st.1.WF) (raws : List Str) :
    (applyLines st raws).1.WF := by
  induction raws generalizing st with
  | nil => exact h
  | cons raw rest ih => exact ih (wf_applyLine h _)

/-! ## Assignment lines -/

theorem mem_of_mapFind {β : Type} {k : Str} {v : β} {m : List (Str × β)}
    (h : mapFind k m = some v) : (k, v) ∈ m := by
  induction m with
  | nil => simp [mapFind] at h
  | cons x rest ih =>
    obtain ⟨k1, v1⟩ := x
    simp only [mapFind] at h
    split_ifs at h with h1
    · cases h; subst h1; exact List.mem_cons_self _ _
    · exact List.mem_cons_of_mem _ (ih h)

theorem get_assign_self {ini : Ini} (h : ini.WF) (s k v : Str) :
    (applyLine (ini, s) (.assignment k v)).1.get s k = some v := by
  simp only [applyLine, Ini.get]
  rw [mapFind_mapUpdate_self _ _ _ h.1]
  simp only [Option.some_bind]
  have hs : Sorted ((mapFind s ini.sections).getD []) := by
    cases hf : mapFind s ini.sections with
    | none => simp [Sorted]
    | some sec => exact h.2 _ (mem_of_mapFind hf)
  rw [mapFind_mapUpdate_self _ _ _ hs]

theorem mapFind_assign_other_section (ini : Ini) {s s' : Str} (k v : Str) (hne : s' ≠ s) :
    mapFind s' (applyLine (ini, s) (.assignment k v)).1.sections = mapFind s' ini.sections := by
  simp only [applyLine]
  exact mapFind_mapUpdate_ne _ _ hne _

theorem get_assign_other {ini : Ini} (h : ini.WF) {s k s' k' : Str} (v : Str)
    (hne : (s', k') ≠ (s, k)) :
    (applyLine (ini, s) (.assignment k v)).1.get s' k' = ini.get s' k' := by
  by_cases hs : s' = s
  · subst hs
    have hk : k' ≠ k := fun e => hne (by rw [e])
    simp only [applyLine, Ini.get]
    rw [mapFind_mapUpdate_self _ _ _ h.1]
    simp only [Option.some_bind]
    rw [mapFind_mapUpdate_ne _ _ hk]
    cases mapFind s' ini.sections <;> simp [mapFind]
  · simp only [Ini.get, mapFind_assign_other_section ini k v hs]

theorem classify_assignment {raw : Str} (hne : trim raw ≠ [])
    (hc : (trim raw).head? ≠ some char_comment)
    (hs : (trim raw).head? ≠ some char_section_start)
    (ha : char_assign ∈ trim raw) :
    classify raw = .assignment (keyOf (trim raw)) (valueOf (trim raw)) := by
  unfold classify
  cases hl : trim raw with
  | nil => exact absurd hl hne
  | cons c t =>
    rw [hl] at hc hs ha
    simp only [List.head?_cons, ne_eq, Option.some.injEq] at hc hs
    simp [hc, hs, ha]

theorem applyLines_section_of_no_header (st : Ini × Str) (raws : List Str)
    (h : ∀ l ∈ raws, ¬ ((trim l).head? = some char_section_start ∧
      (trim l).getLast? = some char_section_end)) :
    (applyLines st raws).2 = st.2 := by
  induction raws generalizing st with
  | nil => rfl
  | cons raw rest ih =>
    rw [applyLines_cons, ih _ (fun l hl => h l (List.mem_cons_of_mem _ hl))]
    have h0 := h raw (List.mem_cons_self _ _)
    unfold classify
    cases hl : trim raw with
    | nil => rfl
    | cons c t =>
      rw [hl] at h0
      simp only [List.head?_cons, Option.some.injEq, not_and] at h0
      simp only
      split_ifs with h1 h2 h3 h4
      · rfl
      · exact absurd h3 (h0 h2)
      · rfl
      · rfl
      · rfl

/-- C1: for every well-formed store, every current section and every line whose
trimmed form is non-empty, begins with neither `;` nor `[` and contains `=`, the
loop body of `parse` stores, in the current section, the text before the first
`=` (right-trimmed) as key with the text after that first `=` (left-trimmed) as
value; every other section/key entry, every other section and the error list
are unchanged, and the current section stays. When no section line precedes
the assignment, `parse` stores it in the empty-string section; the line
`"  a = b=c ; x  "` yields `sections[""]["a"] == "b=c ; x"`. -/
theorem C1_parse_assignment_line (ini : Ini) (section_ raw : Str) (hwf : ini.WF)
    (hne : trim raw ≠ [])
    (hc : (trim raw).head? ≠ some ';')
    (hs : (trim raw).head? ≠ some '[')
    (ha : '=' ∈ trim raw) :
    (∃ ini', parseLine ini section_ raw = some (ini', section_) ∧
      ini'.get section_ (rtrim ((trim raw).takeWhile (fun c => c != '=')))
        = some (ltrim (((trim raw).dropWhile (fun c => c != '=')).drop 1)) ∧
      (∀ s k, (s, k) ≠ (section_, rtrim ((trim raw).takeWhile (fun c => c != '='))) →
        ini'.get s k = ini.get s k) ∧
      (∀ s, s ≠ section_ → mapFind s ini'.sections = mapFind s ini.sections) ∧
      ini'.errors = ini.errors) ∧
    (∀ pre : Str, '\n' ∉ raw →
      (∀ l ∈ getlines pre, ¬ ((trim l).head? = some '[' ∧ (trim l).getLast? = some ']')) →
      ∃ ini', parse ini (pre ++ '\n' :: raw) = some ini' ∧
        ini'.get [] (rtrim ((trim raw).takeWhile (fun c => c != '=')))
          = some (ltrim (((trim raw).dropWhile (fun c => c != '=')).drop 1))) ∧
    (parse Ini.empty "  a = b=c ; x  ".toList).map (fun i => i.get [] "a".toList)
      = some (some "b=c ; x".toList) := by
  have hcl := classify_assignment hne hc hs ha
  refine ⟨⟨(applyLine (ini, section_) (.assignment (keyOf (trim raw)) (valueOf (trim raw)))).1,
    ?_, ?_, ?_, ?_, ?_⟩, ?_, by decide⟩
  · rw [parseLine_eq, hcl]
    rfl
  · exact get_assign_self hwf _ _ _
  · intro s k hsk
    exact get_assign_other hwf _ hsk
  · intro s hs'
    exact mapFind_assign_other_section ini _ _ hs'
  · rfl
  · intro pre hnl hpre
    refine ⟨_, parse_eq _ _, ?_⟩
    rw [getlines_append_newline, getlines_of_not_mem hnl, applyLines_append, applyLines_cons,
      applyLines_nil, hcl]
    have hsec : (applyLines (ini, []) (getlines pre)).2 = [] :=
      applyLines_section_of_no_header _ _ hpre
    have hwf' : (applyLines (ini, []) (getlines pre)).1.WF := wf_applyLines hwf _
    generalize applyLines (ini, []) (getlines pre) = st at hsec hwf'
    obtain ⟨ini1, sec1⟩ := st
    simp only at hsec
    subst hsec
    exact get_assign_self hwf' _ _ _

theorem C1_parse_assignment_line_witness :
    (∃ ini', parseLine Ini.empty "s".toList "  a = b=c ; x  ".toList = some (ini', "s".toList) ∧
      ini'.get "s".toList "a".toList = some "b=c ; x".toList) := by
  obtain ⟨⟨ini', h1, h2, -⟩, -⟩ := C1_parse_assignment_line Ini.empty "s".toList
    "  a = b=c ; x  ".toList wf_empty (by decide) (by decide) (by decide) (by decide)
  exact ⟨ini', h1, h2⟩

/-! ## Trimming -/

theorem rtrim_eq_rdropWhile (s : Str) : rtrim s = s.rdropWhile isspace := rfl

theorem ltrim_suffix (s : Str) : ltrim s <:+ s := List.dropWhile_suffix _

theorem rtrim_isPre (s : Str) : rtrim s <+: s := List.rdropWhile_prefix _ _

theorem ltrim_head {s : Str} {c : Char} (h : (ltrim s).head? = some c) : isspace c = false := by
  induction s with
  | nil => simp [ltrim] at h
  | cons d t ih =>
    simp only [ltrim, List.dropWhile] at h
    cases hd : isspace d with
    | true => rw [hd] at h; exact ih h
    | false =>
      rw [hd] at h
      simp only [List.head?_cons, Option.some.injEq] at h
      rw [← h]; exact hd

theorem rtrim_getLast {s : Str} {c : Char} (h : (rtrim s).getLast? = some c) :
    isspace c = false := by
  have hne : rtrim s ≠ [] := by
    intro e
    rw [e] at h
    simp at h
  have := List.rdropWhile_last_not isspace s hne
  rw [List.getLast?_eq_getLast _ hne] at h
  simp only [Option.some.injEq] at h
  rw [← h]
  simpa using this

theorem head?_of_isPre {a b : Str} {c : Char} (hp : a <+: b) (h : a.head? = some c) :
    b.head? = some c := by
  obtain ⟨t, rfl⟩ := hp
  cases a with
  | nil => simp at h
  | cons x r => simpa using h

theorem getLast?_of_suffix {a b : Str} {c : Char} (hp : a <:+ b) (h : a.getLast? = some c) :
    b.getLast? = some c := by
  obtain ⟨t, rfl⟩ := hp
  cases a with
  | nil => simp at h
  | cons x r =>
    rw [List.getLast?_append_of_ne_nil _ (by simp)]
    exact h

theorem ltrim_eq_self {s : Str} (h : ∀ c, s.head? = some c → isspace c = false) :
    ltrim s = s := by
  cases s with
  | nil => rfl
  | cons d t =>
    have := h d rfl
    simp [ltrim, List.dropWhile, this]

theorem rtrim_eq_self {s : Str} (h : ∀ c, s.getLast? = some c → isspace c = false) :
    rtrim s = s := by
  rw [rtrim_eq_rdropWhile, List.rdropWhile_eq_self_iff]
  intro hl
  have := h _ (List.getLast?_eq_getLast _ hl)
  simp [this]

theorem trimmed_trim (s : Str) : Trimmed (trim s) := by
  refine ⟨fun c hc => ?_, fun c hc => rtrim_getLast hc⟩
  exact ltrim_head (head?_of_isPre (rtrim_isPre _) hc)

theorem trim_eq_self {s : Str} (h : Trimmed s) : trim s = s := by
  unfold trim
  rw [ltrim_eq_self h.1, rtrim_eq_self h.2]

theorem trim_eq_nil_of_all_space {s : Str} (h : ∀ c ∈ s, isspace c = true) : trim s = [] := by
  unfold trim
  have : ltrim s = [] := by
    simp only [ltrim, List.dropWhile_eq_nil_iff]
    exact h
  rw [this]
  rfl

theorem rtrim_cons_of_not_space {c : Char} (t : Str) (h : isspace c = false) :
    ∃ t', rtrim (c :: t) = c :: t' := by
  have hp := rtrim_isPre (c :: t)
  cases hr : rtrim (c :: t) with
  | nil =>
    rw [rtrim_eq_rdropWhile, List.rdropWhile_eq_nil_iff] at hr
    have := hr c (List.mem_cons_self _ _)
    rw [h] at this
    cases this
  | cons d t' =>
    rw [hr] at hp
    obtain ⟨u, hu⟩ := hp
    simp only [List.cons_append, List.cons.injEq] at hu
    rw [hu.1]
    exact ⟨t', rfl⟩

theorem not_mem_of_sublist {a b : Str} {c : Char} (hs : a.Sublist b) (h : c ∉ b) : c ∉ a :=
  fun ha => h (hs.subset ha)

/-! ## Error lines -/

theorem classify_error {raw : Str} (hne : trim raw ≠ [])
    (hc : (trim raw).head? ≠ some char_comment)
    (hs : (trim raw).head? ≠ some char_section_start)
    (ha : char_assign ∉ trim raw) :
    classify raw = .error (trim raw) := by
  unfold classify
  cases hl : trim raw with
  | nil => exact absurd hl hne
  | cons c t =>
    rw [hl] at hc hs ha
    simp only [List.head?_cons, ne_eq, Option.some.injEq] at hc hs
    simp [hc, hs, ha]

theorem isErrorLine_iff (line : Str) :
    isErrorLine line = true ↔ line ≠ [] ∧ line.head? ≠ some char_comment ∧
      line.head? ≠ some char_section_start ∧ char_assign ∉ line := by
  simp [isErrorLine, and_assoc]

theorem errors_applyLine (st : Ini × Str) (raw : Str) :
    (applyLine st (classify raw)).1.errors
      = st.1.errors ++ (if isErrorLine (trim raw) then [trim raw] else []) := by
  by_cases he : isErrorLine (trim raw) = true
  · obtain ⟨h1, h2, h3, h4⟩ := (isErrorLine_iff _).mp he
    rw [classify_error h1 h2 h3 h4, if_pos he]
    rfl
  · rw [if_neg he, List.append_nil]
    rw [isErrorLine_iff] at he
    unfold classify
    cases hl : trim raw with
    | nil => rfl
    | cons c t =>
      rw [hl] at he
      simp only [ne_eq, reduceCtorEq, not_false_eq_true, List.head?_cons, Option.some.injEq,
        true_and, not_and, not_not] at he
      simp only
      split_ifs with h1 h2 h3 h4
      · rfl
      · rfl
      · rfl
      · rfl
      · exact absurd (he h1 h2) h4

theorem errors_applyLines (st : Ini × Str) (raws : List Str) :
    (applyLines st raws).1.errors = st.1.errors ++ (raws.map trim).filter isErrorLine := by
  induction raws generalizing st with
  | nil => simp [applyLines]
  | cons raw rest ih =>
    rw [applyLines_cons, ih, errors_applyLine]
    by_cases he : isErrorLine (trim raw) = true
    · simp [he, List.filter_cons]
    · simp [he, List.filter_cons]

/-- C3: after `parse`, the error list is the previous error list followed by the
trimmed forms of exactly those lines that are non-empty after trimming, begin
with neither `;` nor `[` and contain no `=`, in input order with duplicates
kept; the loop body on such a line appends the trimmed line and leaves the
section mapping and the current section alone; the text `foo` adds the single
entry `foo`. -/
theorem C3_parse_error_list (ini : Ini) (text : Str) :
    (∃ ini', parse ini text = some ini' ∧
      ini'.errors = ini.errors ++ ((getlines text).map trim).filter isErrorLine) ∧
    (∀ section_ raw : Str, trim raw ≠ [] → (trim raw).head? ≠ some ';' →
      (trim raw).head? ≠ some '[' → '=' ∉ trim raw →
      parseLine ini section_ raw
        = some (⟨ini.sections, ini.errors ++ [trim raw]⟩, section_)) ∧
    parse ini "foo".toList = some ⟨ini.sections, ini.errors ++ ["foo".toList]⟩ := by
  refine ⟨⟨_, parse_eq _ _, errors_applyLines _ _⟩, ?_, ?_⟩
  · intro section_ raw h1 h2 h3 h4
    rw [parseLine_eq, classify_error h1 h2 h3 h4]
    rfl
  · rw [parse_eq]
    have h1 : getlines "foo".toList = ["foo".toList] := by decide
    have h2 : classify "foo".toList = .error "foo".toList := by decide
    rw [h1, applyLines_cons, h2]
    rfl

theorem C3_parse_error_list_witness :
    parseLine Ini.empty "s".toList " foo bar ".toList
      = some (⟨[], ["foo bar".toList]⟩, "s".toList) :=
  (C3_parse_error_list Ini.empty []).2.1 "s".toList " foo bar ".toList
    (by decide) (by decide) (by decide) (by decide)

/-! ## Merging of successive parses -/

theorem section_applyLine (ini ini' : Ini) (s : Str) (k : LineKind) :
    (applyLine (ini, s) k).2 = (applyLine (ini', s) k).2 := by
  cases k <;> rfl

theorem get_empty (s k : Str) : Ini.empty.get s k = none := rfl

theorem get_applyLine_merge {ini : Ini} (h : ini.WF) (sec : Str) (c : LineKind) (s k : Str) :
    (applyLine (ini, sec) c).1.get s k
      = match (applyLine (Ini.empty, sec) c).1.get s k with
        | some v => some v
        | none => ini.get s k := by
  cases c with
  | blank => rfl
  | comment => rfl
  | badHeader => rfl
  | header name => rfl
  | error line => rfl
  | assignment key value =>
    by_cases hsk : (s, k) = (sec, key)
    · cases hsk
      rw [get_assign_self h, get_assign_self wf_empty]
    · rw [get_assign_other h _ hsk, get_assign_other wf_empty _ hsk, get_empty]

theorem get_applyLines_merge {st : Ini × Str} (h : st.1.WF) (raws : List Str) (s k : Str) :
    (applyLines st raws).1.get s k
      = match (applyLines (Ini.empty, st.2) raws).1.get s k with
        | some v => some v
        | none => st.1.get s k := by
  induction raws generalizing st with
  | nil => rfl
  | cons raw rest ih =>
    obtain ⟨ini, sec⟩ := st
    rw [applyLines_cons, applyLines_cons, ih (wf_applyLine h _),
      @ih (applyLine (Ini.empty, sec) (classify raw)) (wf_applyLine wf_empty _),
      ← section_applyLine ini Ini.empty sec, get_applyLine_merge h]
    simp only [get_empty]
    cases (applyLines (Ini.empty, (applyLine (ini, sec) (classify raw)).2) rest).1.get s k with
    | some v => rfl
    | none => cases (applyLine (Ini.empty, sec) (classify raw)).1.get s k <;> rfl

theorem isSome_applyLine_merge (ini : Ini) (sec : Str) (c : LineKind) (s : Str) :
    (mapFind s (applyLine (ini, sec) c).1.sections).isSome
      = ((mapFind s (applyLine (Ini.empty, sec) c).1.sections).isSome
          || (mapFind s ini.sections).isSome) := by
  cases c with
  | blank => rfl
  | comment => rfl
  | badHeader => rfl
  | header name => rfl
  | error line => rfl
  | assignment key value =>
    by_cases hs : s = sec
    · subst hs
      have e1 : (mapFind s (applyLine (Ini.empty, s) (.assignment key value)).1.sections).isSome
          = true := by
        simp [applyLine, Ini.empty, mapUpdate, mapFind]
      rw [e1, Bool.true_or]
      simp only [applyLine]
      generalize ini.sections = m
      induction m with
      | nil => simp [mapUpdate, mapFind]
      | cons x rest ih =>
        obtain ⟨k1, v1⟩ := x
        simp only [mapUpdate]
        split_ifs with h1 h2
        · simp [mapFind]
        · simp only [mapFind, (strLt_ne h2).symm, if_false]
          exact ih
        · have : s = k1 := strLt_total (by simpa using h1) (by simpa using h2)
          simp [mapFind, this]
    · rw [mapFind_assign_other_section ini _ _ hs, mapFind_assign_other_section Ini.empty _ _ hs]
      rfl

theorem isSome_applyLines_merge (st : Ini × Str) (raws : List Str) (s : Str) :
    (mapFind s (applyLines st raws).1.sections).isSome
      = ((mapFind s (applyLines (Ini.empty, st.2) raws).1.sections).isSome
          || (mapFind s st.1.sections).isSome) := by
  induction raws generalizing st with
  | nil => rfl
  | cons raw rest ih =>
    obtain ⟨ini, sec⟩ := st
    rw [applyLines_cons, applyLines_cons, ih,
      ih (applyLine (Ini.empty, sec) (classify raw)),
      ← section_applyLine ini Ini.empty sec, isSome_applyLine_merge ini sec]
    simp only [Bool.or_assoc]

/-- C4: parsing `a` and then `b` into the same initially empty store succeeds and
gives the right-biased union of the two stand-alone parses: each section/key
has the value of `b` when the stand-alone parse of `b` assigns it and that of
`a` otherwise, a section is present exactly when it is present in one of the
two, and the error list is the errors of `a` followed by those of `b`. The
second parse starts in the empty-string section: after `[s]`, `x=1` a second
stream `y=2` stores `y` under the empty name, not under `s`. -/
theorem C4_sequential_parse_merges (a b : Str) :
    (∃ ia ib iab, parse Ini.empty a = some ia ∧ parse Ini.empty b = some ib ∧
      (parse Ini.empty a).bind (fun i => parse i b) = some iab ∧
      (∀ s k, iab.get s k = match ib.get s k with
                            | some v => some v
                            | none => ia.get s k) ∧
      (∀ s, (mapFind s iab.sections).isSome
        = ((mapFind s ib.sections).isSome || (mapFind s ia.sections).isSome)) ∧
      iab.errors = ia.errors ++ ib.errors) ∧
    ((parse Ini.empty "[s]\nx=1".toList).bind (fun i => parse i "y=2".toList)
      = some ⟨[([], [("y".toList, "2".toList)]), ("s".toList, [("x".toList, "1".toList)])], []⟩) := by
  refine ⟨⟨_, _, (applyLines ((applyLines (Ini.empty, []) (getlines a)).1, []) (getlines b)).1,
    parse_eq _ _, parse_eq _ _, ?_, ?_, ?_, ?_⟩, by decide⟩
  · rw [parse_eq, Option.some_bind, parse_eq]
  · intro s k
    exact @get_applyLines_merge ((applyLines (Ini.empty, []) (getlines a)).1, [])
      (wf_applyLines wf_empty _) _ s k
  · intro s
    exact isSome_applyLines_merge ((applyLines (Ini.empty, []) (getlines a)).1, []) _ s
  · rw [errors_applyLines, errors_applyLines, errors_applyLines]
    simp [Ini.empty]

/-! ## generate -/

theorem unlines_cons (l : Str) (ls : List Str) : unlines (l :: ls) = l ++ '\n' :: unlines ls := by
  simp [unlines]

theorem unlines_append (a b : List Str) : unlines (a ++ b) = unlines a ++ unlines b := by
  simp [unlines]

theorem generateValues_eq (os : Str) (sec : Section) :
    generateValues os sec
      = os ++ unlines (sec.map (fun val => val.1 ++ char_assign :: val.2)) := by
  induction sec generalizing os with
  | nil => simp [generateValues, unlines]
  | cons val rest ih =>
    have : generateValues os (val :: rest)
        = generateValues (os ++ val.1 ++ [char_assign] ++ val.2 ++ ['\n']) rest := rfl
    rw [this, ih, List.map_cons, unlines_cons]
    simp

theorem generate_eq (ini : Ini) (os : Str) :
    generate ini os = (ini, os ++ unlines (storeLines ini)) := by
  unfold generate storeLines
  congr 1
  generalize ini.sections = secs
  induction secs generalizing os with
  | nil => simp [unlines]
  | cons sec rest ih =>
    rw [List.foldl_cons, ih, generateValues_eq, List.flatMap_cons, unlines_append]
    simp [sectionLines, unlines_cons]

/-- C7: `generate` writes, after what the stream already holds, exactly the lines
of the store, each terminated by a newline: per section, in the order of the
mapping, the line `[name]` followed by one line `key=value` per pair in the
order of the section; section names and the keys of each section come in
strictly ascending order; the number of lines is the number of sections plus
the total number of keys; the store is returned unchanged. -/
theorem C7_generate_output (ini : Ini) (os : Str) (hwf : ini.WF) :
    generate ini os
      = (ini, os ++ (ini.sections.flatMap (fun sec =>
          ('[' :: sec.1 ++ [']']) :: sec.2.map (fun val => val.1 ++ '=' :: val.2))).flatMap
            (fun l => l ++ ['\n'])) ∧
    (ini.sections.map Prod.fst).Pairwise (fun a b => strLt a b = true) ∧
    (∀ sec ∈ ini.sections, (sec.2.map Prod.fst).Pairwise (fun a b => strLt a b = true)) ∧
    (ini.sections.flatMap (fun sec =>
        ('[' :: sec.1 ++ [']']) :: sec.2.map (fun val => val.1 ++ '=' :: val.2))).length
      = ini.sections.length + (ini.sections.map (fun sec => sec.2.length)).sum := by
  refine ⟨generate_eq ini os, ?_, ?_, ?_⟩
  · rw [List.pairwise_map]
    exact hwf.1
  · intro sec hsec
    rw [List.pairwise_map]
    exact hwf.2 sec hsec
  · show (storeLines ini).length = _
    unfold storeLines
    generalize ini.sections = secs
    induction secs with
    | nil => rfl
    | cons sec rest ih =>
      simp only [List.flatMap_cons, List.length_append, ih, sectionLines, List.length_cons,
        List.length_map, List.map_cons, List.sum_cons]
      omega

theorem C7_generate_output_witness :
    generate ⟨[("a".toList, [("k".toList, "v".toList), ("l".toList, "w".toList)]),
        ("b".toList, [])], []⟩ []
      = (⟨[("a".toList, [("k".toList, "v".toList), ("l".toList, "w".toList)]),
        ("b".toList, [])], []⟩, "[a]\nk=v\nl=w\n[b]\n".toList) :=
  (C7_generate_output ⟨[("a".toList, [("k".toList, "v".toList), ("l".toList, "w".toList)]),
        ("b".toList, [])], []⟩ [] (by
          refine ⟨?_, ?_⟩
          · simp only [Sorted, List.pairwise_cons, List.mem_singleton, forall_eq,
              List.not_mem_nil, false_implies, implies_true, List.Pairwise.nil, and_true]
            decide
          · intro sec hsec
            simp only [List.mem_cons, List.mem_singleton, List.not_mem_nil, or_false] at hsec
            rcases hsec with rfl | rfl
            · simp only [Sorted, List.pairwise_cons, List.mem_singleton, forall_eq,
                List.not_mem_nil, false_implies, implies_true, List.Pairwise.nil, and_true]
              decide
            · simp [Sorted])).1

/-! ## Lines without effect -/

theorem classify_badHeader {raw : Str} (hb : (trim raw).head? = some char_section_start)
    (he : (trim raw).getLast? ≠ some char_section_end) : classify raw = .badHeader := by
  unfold classify
  cases hl : trim raw with
  | nil => rw [hl] at hb; simp at hb
  | cons c t =>
    rw [hl] at hb he
    simp only [List.head?_cons, Option.some.injEq] at hb
    subst hb
    have : char_section_start ≠ char_comment := by decide
    simp [this, he]

theorem classify_blank {raw : Str} (h : trim raw = []) : classify raw = .blank := by
  unfold classify
  rw [h]

theorem classify_comment {raw : Str} (h : (trim raw).head? = some char_comment) :
    classify raw = .comment := by
  unfold classify
  cases hl : trim raw with
  | nil => rw [hl] at h; simp at h
  | cons c t =>
    rw [hl] at h
    simp only [List.head?_cons, Option.some.injEq] at h
    simp [h]

theorem parseLines_insert_noop {l : Str} (hnl : '\n' ∉ l)
    (h : ∀ st, applyLine st (classify l) = st) (ini : Ini) (section_ : Str) :
    (∀ a b, parseLines ini section_ (getlines (a ++ '\n' :: (l ++ '\n' :: b)))
      = parseLines ini section_ (getlines (a ++ '\n' :: b))) ∧
    (∀ b, parseLines ini section_ (getlines (l ++ '\n' :: b))
      = parseLines ini section_ (getlines b)) ∧
    (∀ a, parseLines ini section_ (getlines (a ++ '\n' :: l))
      = parseLines ini section_ (getlines a)) := by
  refine ⟨?_, ?_, ?_⟩
  · intro a b
    rw [parseLines_eq, parseLines_eq, getlines_append_newline, getlines_line_newline hnl,
      getlines_append_newline, applyLines_append, applyLines_append, applyLines_cons, h]
  · intro b
    rw [parseLines_eq, parseLines_eq, getlines_line_newline hnl, applyLines_cons, h]
  · intro a
    rw [parseLines_eq, parseLines_eq, getlines_append_newline, getlines_of_not_mem hnl,
      applyLines_append, applyLines_cons, h, applyLines_nil]

/-- C8: a line whose trimmed form begins with `[` and does not end with `]` is
dropped: the loop body of `parse` returns the store and the current section
as they were, and inserting the line between two lines, before the first line
or after the last line of any input changes neither the store (sections and
errors) nor the current section that the loop of `parse` ends with. The input
`[s]`, `[incomplete`, `k=v` stores `k` under `s` and records no error. -/
theorem C8_unterminated_header_dropped (l : Str) (hnl : '\n' ∉ l)
    (hb : (trim l).head? = some '[') (he : (trim l).getLast? ≠ some ']')
    (ini : Ini) (section_ : Str) :
    parseLine ini section_ l = some (ini, section_) ∧
    (∀ a b, parseLines ini section_ (getlines (a ++ '\n' :: (l ++ '\n' :: b)))
      = parseLines ini section_ (getlines (a ++ '\n' :: b))) ∧
    (∀ b, parseLines ini section_ (getlines (l ++ '\n' :: b))
      = parseLines ini section_ (getlines b)) ∧
    (∀ a, parseLines ini section_ (getlines (a ++ '\n' :: l))
      = parseLines ini section_ (getlines a)) ∧
    (∀ a b, parse ini (a ++ '\n' :: (l ++ '\n' :: b)) = parse ini (a ++ '\n' :: b)) ∧
    (∀ b, parse ini (l ++ '\n' :: b) = parse ini b) ∧
    (∀ a, parse ini (a ++ '\n' :: l) = parse ini a) ∧
    parse Ini.empty "[s]\n[incomplete\nk=v".toList
      = some ⟨[("s".toList, [("k".toList, "v".toList)])], []⟩ := by
  have hcl : classify l = .badHeader := classify_badHeader hb he
  have hno : ∀ st, applyLine st (classify l) = st := fun st => by rw [hcl]; rfl
  obtain ⟨h1, h2, h3⟩ := parseLines_insert_noop hnl hno ini section_
  obtain ⟨g1, g2, g3⟩ := parseLines_insert_noop hnl hno ini []
  refine ⟨?_, h1, h2, h3, ?_, ?_, ?_, by decide⟩
  · rw [parseLine_eq, hcl]; rfl
  · intro a b; simp only [parse, g1]
  · intro b; simp only [parse, g2]
  · intro a; simp only [parse, g3]

theorem C8_unterminated_header_dropped_witness :
    parse Ini.empty ("[s]".toList ++ '\n' :: ("  [a]=b ".toList ++ '\n' :: "k=v".toList))
      = parse Ini.empty ("[s]".toList ++ '\n' :: "k=v".toList) :=
  (C8_unterminated_header_dropped "  [a]=b ".toList (by decide) (by decide) (by decide)
    Ini.empty []).2.2.2.2.1 "[s]".toList "k=v".toList

/-- C9: a line that is empty, consists only of whitespace, or whose first
non-whitespace character is `;` has no effect: the loop body of `parse`
returns the store and the current section as they were, and inserting the
line between two lines, before the first line or after the last line of any
input changes neither the store (sections and errors) nor the current section
that the loop of `parse` ends with. -/
theorem C9_blank_and_comment_lines_ignored (l : Str) (hnl : '\n' ∉ l)
    (hl : (∀ c ∈ l, isspace c = true) ∨ (l.dropWhile isspace).head? = some ';')
    (ini : Ini) (section_ : Str) :
    parseLine ini section_ l = some (ini, section_) ∧
    (∀ a b, parseLines ini section_ (getlines (a ++ '\n' :: (l ++ '\n' :: b)))
      = parseLines ini section_ (getlines (a ++ '\n' :: b))) ∧
    (∀ b, parseLines ini section_ (getlines (l ++ '\n' :: b))
      = parseLines ini section_ (getlines b)) ∧
    (∀ a, parseLines ini section_ (getlines (a ++ '\n' :: l))
      = parseLines ini section_ (getlines a)) ∧
    (∀ a b, parse ini (a ++ '\n' :: (l ++ '\n' :: b)) = parse ini (a ++ '\n' :: b)) ∧
    (∀ b, parse ini (l ++ '\n' :: b) = parse ini b) ∧
    (∀ a, parse ini (a ++ '\n' :: l) = parse ini a) := by
  have hno : ∀ st, applyLine st (classify l) = st := by
    intro st
    rcases hl with hl | hl
    · rw [classify_blank (trim_eq_nil_of_all_space hl)]; rfl
    · have : (trim l).head? = some char_comment := by
        unfold trim ltrim
        cases hd : l.dropWhile isspace with
        | nil => rw [hd] at hl; simp at hl
        | cons c t =>
          rw [hd] at hl
          simp only [List.head?_cons, Option.some.injEq] at hl
          subst hl
          obtain ⟨t', ht'⟩ := rtrim_cons_of_not_space t (c := ';') (by decide)
          rw [ht']
          rfl
      rw [classify_comment this]; rfl
  obtain ⟨h1, h2, h3⟩ := parseLines_insert_noop hnl hno ini section_
  obtain ⟨g1, g2, g3⟩ := parseLines_insert_noop hnl hno ini []
  refine ⟨?_, h1, h2, h3, ?_, ?_, ?_⟩
  · rw [parseLine_eq, hno]
  · intro a b; simp only [parse, g1]
  · intro b; simp only [parse, g2]
  · intro a; simp only [parse, g3]

theorem C9_blank_and_comment_lines_ignored_witness :
    parse Ini.empty ("[s]".toList ++ '\n' :: ("  ; x=[1] ".toList ++ '\n' :: "k=v".toList))
      = parse Ini.empty ("[s]".toList ++ '\n' :: "k=v".toList) :=
  (C9_blank_and_comment_lines_ignored "  ; x=[1] ".toList (by decide) (Or.inr (by decide))
    Ini.empty []).2.2.2.2.1 "[s]".toList "k=v".toList

/-! ## Invariants of the parse loop -/

theorem mapUpdate_ne_nil {β : Type} (d : β) (f : β → β) (k : Str) (m : List (Str × β)) :
    mapUpdate d f k m ≠ [] := by
  cases m with
  | nil => simp [mapUpdate]
  | cons x rest =>
    obtain ⟨k1, v⟩ := x
    simp only [mapUpdate]
    split_ifs <;> simp

theorem classify_assignment_inv {raw k v : Str} (h : classify raw = .assignment k v) :
    trim raw ≠ [] ∧ (trim raw).head? ≠ some char_comment ∧
      (trim raw).head? ≠ some char_section_start ∧ char_assign ∈ trim raw ∧
      k = keyOf (trim raw) ∧ v = valueOf (trim raw) := by
  unfold classify at h
  cases hl : trim raw with
  | nil => rw [hl] at h; cases h
  | cons c t =>
    rw [hl] at h
    simp only at h
    split_ifs at h with h1 h2 h3 h4
    · cases h
      refine ⟨by simp, ?_, ?_, h4, rfl, rfl⟩
      · simpa using h1
      · simpa using h2

theorem classify_header_inv {raw n : Str} (h : classify raw = .header n) :
    (trim raw).head? = some char_section_start ∧
      (trim raw).getLast? = some char_section_end ∧ n = headerName (trim raw) := by
  unfold classify at h
  cases hl : trim raw with
  | nil => rw [hl] at h; cases h
  | cons c t =>
    rw [hl] at h
    simp only at h
    split_ifs at h with h1 h2 h3 h4
    · cases h
      exact ⟨by simp [h2], h3, rfl⟩

theorem inv_applyLine (P : Str → Str → Prop) (Q : Str → Prop) {st : Ini × Str} {c : LineKind}
    (hc : ∀ k v, c = .assignment k v → P k v) (hq : ∀ n, c = .header n → Q n)
    (h : Q st.2 ∧ ∀ sec ∈ st.1.sections, Q sec.1 ∧ sec.2 ≠ [] ∧ ∀ kv ∈ sec.2, P kv.1 kv.2) :
    Q (applyLine st c).2 ∧ ∀ sec ∈ (applyLine st c).1.sections,
      Q sec.1 ∧ sec.2 ≠ [] ∧ ∀ kv ∈ sec.2, P kv.1 kv.2 := by
  cases c with
  | blank => exact h
  | comment => exact h
  | badHeader => exact h
  | header name => exact ⟨hq name rfl, h.2⟩
  | error line => exact h
  | assignment key value =>
    refine ⟨h.1, ?_⟩
    intro sec hsec
    have hP := hc key value rfl
    have hkv : ∀ w : Section, (∀ kv ∈ w, P kv.1 kv.2) →
        ∀ kv ∈ mapUpdate [] (fun _ => value) key w, P kv.1 kv.2 := by
      intro w hw kv hkv
      rcases mem_mapUpdate_cases hkv with h1 | h1 | ⟨v0, -, h1⟩
      · exact hw kv h1
      · rw [h1]; exact hP
      · rw [h1]; exact hP
    rcases mem_mapUpdate_cases hsec with h1 | h1 | ⟨w, hw, h1⟩
    · exact h.2 sec h1
    · rw [h1]
      exact ⟨h.1, mapUpdate_ne_nil _ _ _ _, hkv [] (by simp)⟩
    · rw [h1]
      exact ⟨h.1, mapUpdate_ne_nil _ _ _ _, hkv w (h.2 _ hw).2.2⟩

theorem inv_applyLines (P : Str → Str → Prop) (Q : Str → Prop) {st : Ini × Str}
    (raws : List Str)
    (hc : ∀ raw ∈ raws, ∀ k v, classify raw = .assignment k v → P k v)
    (hq : ∀ raw ∈ raws, ∀ n, classify raw = .header n → Q n)
    (h : Q st.2 ∧ ∀ sec ∈ st.1.sections, Q sec.1 ∧ sec.2 ≠ [] ∧ ∀ kv ∈ sec.2, P kv.1 kv.2) :
    Q (applyLines st raws).2 ∧ ∀ sec ∈ (applyLines st raws).1.sections,
      Q sec.1 ∧ sec.2 ≠ [] ∧ ∀ kv ∈ sec.2, P kv.1 kv.2 := by
  induction raws generalizing st with
  | nil => exact h
  | cons raw rest ih =>
    rw [applyLines_cons]
    apply ih (fun r hr => hc r (List.mem_cons_of_mem _ hr))
      (fun r hr => hq r (List.mem_cons_of_mem _ hr))
    exact inv_applyLine P Q (hc raw (List.mem_cons_self _ _)) (hq raw (List.mem_cons_self _ _)) h

/-! ## Shape of keys, values and section names -/

theorem keyOf_isPre (line : Str) : keyOf line <+: line :=
  (rtrim_isPre _).trans ( List.takeWhile_prefix _)

theorem valueOf_suffix (line : Str) : valueOf line <:+ line :=
  (ltrim_suffix _).trans ((List.drop_suffix _ _).trans (List.dropWhile_suffix _))

theorem trimmed_keyOf {line : Str} (h : Trimmed line) : Trimmed (keyOf line) :=
  ⟨fun _ hc => h.1 _ (head?_of_isPre (keyOf_isPre line) hc), fun _ hc => rtrim_getLast hc⟩

theorem trimmed_valueOf {line : Str} (h : Trimmed line) : Trimmed (valueOf line) :=
  ⟨fun _ hc => ltrim_head hc, fun _ hc => h.2 _ (getLast?_of_suffix (valueOf_suffix line) hc)⟩

theorem assign_not_mem_keyOf (line : Str) : char_assign ∉ keyOf line := by
  intro h
  have h1 : char_assign ∈ line.takeWhile (fun c => c != char_assign) :=
    (rtrim_isPre _).subset h
  have := List.mem_takeWhile_imp h1
  simp at this

/-- C10: after parsing any text into an empty store, every key and every value
stored in any section has no leading and no trailing whitespace character. -/
theorem C10_keys_values_trimmed (text : Str) :
    ∃ ini', parse Ini.empty text = some ini' ∧
      ∀ sec ∈ ini'.sections, ∀ kv ∈ sec.2,
        ((∀ c, kv.1.head? = some c → isspace c = false) ∧
          (∀ c, kv.1.getLast? = some c → isspace c = false)) ∧
        ((∀ c, kv.2.head? = some c → isspace c = false) ∧
          (∀ c, kv.2.getLast? = some c → isspace c = false)) := by
  refine ⟨_, parse_eq _ _, ?_⟩
  have := @inv_applyLines (fun k v => Trimmed k ∧ Trimmed v) (fun _ => True)
    (Ini.empty, []) (getlines text)
    (by
      intro raw _ k v hkv
      obtain ⟨-, -, -, -, rfl, rfl⟩ := classify_assignment_inv hkv
      exact ⟨trimmed_keyOf (trimmed_trim raw), trimmed_valueOf (trimmed_trim raw)⟩)
    (fun _ _ _ _ => trivial)
    ⟨trivial, by simp [Ini.empty]⟩
  intro sec hsec kv hkv
  exact (this.2 sec hsec).2.2 kv hkv

theorem C10_keys_values_trimmed_witness :
    ∃ ini', parse Ini.empty " \t a b \t = \t c d \t ".toList = some ini' ∧
      ∀ sec ∈ ini'.sections, ∀ kv ∈ sec.2,
        ((∀ c, kv.1.head? = some c → isspace c = false) ∧
          (∀ c, kv.1.getLast? = some c → isspace c = false)) ∧
        ((∀ c, kv.2.head? = some c → isspace c = false) ∧
          (∀ c, kv.2.getLast? = some c → isspace c = false)) :=
  C10_keys_values_trimmed " \t a b \t = \t c d \t ".toList

/-! ## The loop of `replace` computes `replaceAll` -/

theorem replaceAllAux_skip (from_ to_ : Str) (n : Nat) (s : Str) :
    replaceAllAux from_ to_ n s = replaceAllAux from_ to_ 0 (s.drop n) := by
  induction n generalizing s with
  | zero => rfl
  | succ n ih =>
    cases s with
    | nil => rfl
    | cons c t => simp only [replaceAllAux, List.drop_succ_cons, ih]

theorem find_append_left (from_ done rest : Str) :
    find from_ (done ++ rest) done.length
      = (find from_ rest 0).map (fun q => q + done.length) := by
  induction done with
  | nil => simp
  | cons d ds ih =>
    have ih' : find from_ (ds.append rest) ds.length
        = (find from_ rest 0).map (fun q => q + ds.length) := ih
    simp only [List.cons_append, List.length_cons, find, ih', Option.map_map]
    rfl

theorem find_zero_some {from_ s : Str} {q : Nat} (to_ : Str) (hf : from_ ≠ [])
    (h : find from_ s 0 = some q) :
    ∃ pre post, s = pre ++ from_ ++ post ∧ pre.length = q ∧
      replaceAll from_ to_ s = pre ++ to_ ++ replaceAll from_ to_ post := by
  induction s generalizing q with
  | nil => simp [find, hf] at h
  | cons c t ih =>
    simp only [find] at h
    by_cases hp : from_.isPrefixOf (c :: t) = true
    · simp only [hp, if_true, Option.some.injEq] at h
      subst h
      obtain ⟨post, hpost⟩ := List.isPrefixOf_iff_prefix.mp hp
      refine ⟨[], post, by simpa using hpost.symm, rfl, ?_⟩
      simp only [replaceAll, replaceAllAux, hp, if_true, List.nil_append]
      rw [replaceAllAux_skip]
      congr 2
      have : t = (c :: t).drop 1 := rfl
      rw [this, List.drop_drop, ← hpost]
      have hl : 0 < from_.length := List.length_pos.mpr hf
      have : 1 + (from_.length - 1) = from_.length := by omega
      rw [this, List.drop_left]
    · simp only [hp, Bool.false_eq_true, if_false, Option.map_eq_some'] at h
      obtain ⟨q', hq', rfl⟩ := h
      obtain ⟨pre, post, h1, h2, h3⟩ := ih hq'
      refine ⟨c :: pre, post, by simp [h1], by simp [h2], ?_⟩
      simp only [replaceAll, replaceAllAux, hp, Bool.false_eq_true, if_false, List.cons_append,
        List.cons.injEq, true_and]
      exact h3

theorem find_zero_none {from_ to_ s : Str} (h : find from_ s 0 = none) :
    replaceAll from_ to_ s = s := by
  induction s with
  | nil => rfl
  | cons c t ih =>
    simp only [find] at h
    by_cases hp : from_.isPrefixOf (c :: t) = true
    · simp [hp] at h
    · simp only [hp, Bool.false_eq_true, if_false, Option.map_eq_none'] at h
      simp only [replaceAll, replaceAllAux, hp, Bool.false_eq_true, if_false, List.cons.injEq,
        true_and]
      exact ih h

theorem find_zero_none_of_absent {from_ s : Str} (hf : from_ ≠ []) (h : ¬ from_ <:+: s) :
    find from_ s 0 = none := by
  cases hq : find from_ s 0 with
  | none => rfl
  | some q =>
    obtain ⟨pre, post, h1, -, -⟩ := find_zero_some [] hf hq
    exact absurd ⟨pre, post, h1.symm⟩ h

theorem replaceLoop_eq {from_ : Str} (to_ : Str) (hf : from_ ≠ []) (fuel : Nat) (done rest : Str)
    (hfuel : rest.length < fuel) :
    replaceLoop from_ to_ fuel (done ++ rest) done.length
      = some (done ++ replaceAll from_ to_ rest) := by
  induction fuel generalizing done rest with
  | zero => omega
  | succ fuel ih =>
    simp only [replaceLoop, find_append_left]
    cases hq : find from_ rest 0 with
    | none => simp [find_zero_none hq]
    | some q =>
      obtain ⟨pre, post, h1, h2, h3⟩ := find_zero_some to_ hf hq
      simp only [Option.map_some']
      have hl : 0 < from_.length := List.length_pos.mpr hf
      have e1 : (done ++ rest).take (q + done.length) = done ++ pre := by
        rw [h1, ← h2, Nat.add_comm]
        have : done ++ (pre ++ from_ ++ post) = (done ++ pre) ++ (from_ ++ post) := by simp
        rw [this, ← List.length_append, List.take_left]
      have e2 : (done ++ rest).drop (q + done.length + from_.length) = post := by
        rw [h1, ← h2]
        have : done ++ (pre ++ from_ ++ post) = (done ++ pre ++ from_) ++ post := by simp
        have hlen : pre.length + done.length + from_.length = (done ++ pre ++ from_).length := by
          simp only [List.length_append]; omega
        rw [this, hlen, List.drop_left]
      have e3 : q + done.length + to_.length = (done ++ pre ++ to_).length := by
        simp only [List.length_append]; omega
      rw [e1, e2, e3, ih (done ++ pre ++ to_) post (by
        rw [h1] at hfuel
        simp only [List.length_append] at hfuel
        omega)]
      rw [h3]
      simp

theorem replace_eq {from_ : Str} (hf : from_ ≠ []) (str to_ : Str) :
    replace str from_ to_ = some (replaceAll from_ to_ str) := by
  have := replaceLoop_eq to_ hf (str.length + 1) [] str (Nat.lt_succ_self _)
  simpa [replace] using this

theorem token_ne_nil (key : Str) : token key ≠ [] := by
  simp [token]

theorem replaceAll_of_absent {from_ : Str} (hf : from_ ≠ []) (to_ : Str) {s : Str}
    (h : ¬ from_ <:+: s) : replaceAll from_ to_ s = s :=
  find_zero_none (find_zero_none_of_absent hf h)

/-! ## interpolate always returns, and what it returns -/

theorem interpolateInner_eq (srcval : Str × Str) (dst : Section) :
    interpolateInner srcval dst = some (substInner srcval dst) := by
  induction dst with
  | nil => rfl
  | cons val rest ih =>
    simp only [interpolateInner, ih, replace_eq (token_ne_nil _), substInner, List.map_cons,
      substPair]
    split_ifs <;> rfl

theorem interpolateFrom_eq (src dst : Section) :
    interpolateFrom src dst = some (substFrom src dst) := by
  induction src generalizing dst with
  | nil => rfl
  | cons srcval src ih =>
    simp only [interpolateFrom, interpolateInner_eq, ih]
    rfl

theorem interpolateSelfAux_eq (n i : Nat) (sec : Section) :
    interpolateSelfAux n i sec = some (substSelfAux n i sec) := by
  induction n generalizing i sec with
  | zero => rfl
  | succ n ih =>
    simp only [interpolateSelfAux, substSelfAux]
    cases sec.get? i with
    | none => rfl
    | some srcval => simp only [interpolateInner_eq, ih]

theorem interpolateSelf_eq (sec : Section) : interpolateSelf sec = some (substSelf sec) :=
  interpolateSelfAux_eq _ _ _

theorem interpolateSections_eq (defsec : Option Section) (secs : Sections) :
    interpolateSections defsec secs
      = some (secs.map (fun sec =>
          if sec.1 ≠ default_section_name then
            (sec.1, match defsec with
                    | some d => substFrom d (substSelf sec.2)
                    | none => substSelf sec.2)
          else sec)) := by
  induction secs with
  | nil => rfl
  | cons sec rest ih =>
    simp only [interpolateSections, ih, interpolateSelf_eq, List.map_cons]
    by_cases h : sec.1 = default_section_name
    · simp [h]
    · simp only [ne_eq, h, not_false_eq_true, if_true]
      cases defsec with
      | none => rfl
      | some d => simp only [interpolateFrom_eq]

theorem mapFind_map_values {β : Type} (f : Str × β → Str × β) (hf : ∀ x, (f x).1 = x.1)
    (k : Str) (m : List (Str × β)) :
    mapFind k (m.map f) = (mapFind k m).map (fun v => (f (k, v)).2) := by
  induction m with
  | nil => rfl
  | cons x rest ih =>
    obtain ⟨k1, v⟩ := x
    have h1 := hf (k1, v)
    simp only [List.map_cons]
    cases hfx : f (k1, v) with
    | mk a b =>
      rw [hfx] at h1
      simp only at h1
      subst h1
      simp only [mapFind]
      by_cases hk : k = a
      · subst hk
        simp [hfx]
      · simp [hk, ih]

theorem mapFind_mapSet_self {β : Type} (k : Str) (v : β) (m : List (Str × β)) :
    mapFind k (mapSet k v m) = (mapFind k m).map (fun _ => v) := by
  induction m with
  | nil => rfl
  | cons x rest ih =>
    obtain ⟨k1, w⟩ := x
    simp only [mapSet]
    by_cases hk : k = k1
    · simp [hk, mapFind]
    · simp [hk, mapFind, ih]

theorem mapFind_mapSet_ne {β : Type} {k k' : Str} (h : k' ≠ k) (v : β) (m : List (Str × β)) :
    mapFind k' (mapSet k v m) = mapFind k' m := by
  induction m with
  | nil => rfl
  | cons x rest ih =>
    obtain ⟨k1, w⟩ := x
    simp only [mapSet]
    by_cases hk : k = k1
    · subst hk
      simp [mapFind, h]
    · simp only [hk, if_false, mapFind, ih]

theorem interpolate_of_default {ini : Ini} {D : Section}
    (hD : mapFind default_section_name ini.sections = some D) :
    interpolate ini
      = some ⟨(mapSet default_section_name (substSelf D) ini.sections).map
          (fun sec : Str × Section =>
            if sec.1 ≠ default_section_name then
              (sec.1, substFrom (substSelf D) (substSelf sec.2))
            else sec), ini.errors⟩ := by
  simp only [interpolate, hD, interpolateSelf_eq, interpolateSections_eq]

theorem interpolate_step_fst (D' : Section) (x : Str × Section) :
    ((fun sec : Str × Section =>
        if sec.1 ≠ default_section_name then (sec.1, substFrom D' (substSelf sec.2))
        else sec) x).1 = x.1 := by
  simp only
  split_ifs <;> rfl

theorem interpolate_default {ini : Ini} {D : Section}
    (hD : mapFind default_section_name ini.sections = some D) :
    ∃ ini', interpolate ini = some ini' ∧
      mapFind default_section_name ini'.sections = some (substSelf D) := by
  refine ⟨_, interpolate_of_default hD, ?_⟩
  simp only
  rw [mapFind_map_values _ (interpolate_step_fst _), mapFind_mapSet_self, hD]
  simp

/-- C6: when the store has a section `DEFAULT` holding `D`, `interpolate()`
returns; in the result `DEFAULT` holds `D'`, the self-substitution of `D`; every
other section that held `S` holds the result of first self-substituting `S` and
then substituting with the pairs of the resolved `D'`; no section appears or
disappears and the error list is untouched. Nothing depends on how the
section name compares with `DEFAULT`. With `DEFAULT = {a: "1", b: "%(a)"}` a
section `{c: "%(b)"}` ends with `c = "1"`, whether it is named `s` or `A`. -/
theorem C6_interpolation_order (ini : Ini) (D : Section)
    (hD : mapFind default_section_name ini.sections = some D) :
    (∃ ini' D', interpolate ini = some ini' ∧ interpolateSelf D = some D' ∧
      mapFind default_section_name ini'.sections = some D' ∧
      (∀ name S, name ≠ default_section_name → mapFind name ini.sections = some S →
        ∃ S1 S2, interpolateSelf S = some S1 ∧ interpolateFrom D' S1 = some S2 ∧
          mapFind name ini'.sections = some S2) ∧
      (∀ name, mapFind name ini.sections = none → mapFind name ini'.sections = none) ∧
      ini'.sections.map Prod.fst = ini.sections.map Prod.fst ∧
      ini'.errors = ini.errors) ∧
    interpolate ⟨[("DEFAULT".toList, [("a".toList, "1".toList), ("b".toList, "%(a)".toList)]),
        ("s".toList, [("c".toList, "%(b)".toList)])], []⟩
      = some ⟨[("DEFAULT".toList, [("a".toList, "1".toList), ("b".toList, "1".toList)]),
        ("s".toList, [("c".toList, "1".toList)])], []⟩ ∧
    interpolate ⟨[("A".toList, [("c".toList, "%(b)".toList)]),
        ("DEFAULT".toList, [("a".toList, "1".toList), ("b".toList, "%(a)".toList)])], []⟩
      = some ⟨[("A".toList, [("c".toList, "1".toList)]),
        ("DEFAULT".toList, [("a".toList, "1".toList), ("b".toList, "1".toList)])], []⟩ := by
  refine ⟨?_, by decide, by decide⟩
  have hstep := interpolate_step_fst (substSelf D)
  have hint := interpolate_of_default hD
  refine ⟨_, substSelf D, hint, interpolateSelf_eq D, ?_, ?_, ?_, ?_, ?_⟩
  · simp only
    rw [mapFind_map_values _ hstep, mapFind_mapSet_self, hD]
    simp
  · intro name S hname hS
    refine ⟨substSelf S, substFrom (substSelf D) (substSelf S), interpolateSelf_eq S,
      interpolateFrom_eq _ _, ?_⟩
    simp only
    rw [mapFind_map_values _ hstep, mapFind_mapSet_ne hname, hS]
    simp [hname]
  · intro name hnone
    have hname : name ≠ default_section_name := by
      rintro rfl
      rw [hD] at hnone
      cases hnone
    simp only
    rw [mapFind_map_values _ hstep, mapFind_mapSet_ne hname, hnone]
    rfl
  · simp only [List.map_map]
    have : ∀ m : Sections, (mapSet default_section_name (substSelf D) m).map Prod.fst
        = m.map Prod.fst := by
      intro m
      induction m with
      | nil => rfl
      | cons x rest ih =>
        simp only [mapSet]
        split_ifs
        · rfl
        · simp only [List.map_cons, ih]
    rw [← this ini.sections]
    apply List.map_congr_left
    intro x _
    exact hstep x
  · rfl

theorem C6_interpolation_order_witness :
    ∃ ini' D', interpolate ⟨[("DEFAULT".toList, [("a".toList, "1".toList),
        ("b".toList, "%(a)".toList)]), ("s".toList, [("c".toList, "%(b)".toList)])], []⟩
        = some ini' ∧
      interpolateSelf [("a".toList, "1".toList), ("b".toList, "%(a)".toList)] = some D' ∧
      mapFind default_section_name ini'.sections = some D' :=
  let ⟨ini', D', h1, h2, h3, _⟩ := (C6_interpolation_order
    ⟨[("DEFAULT".toList, [("a".toList, "1".toList), ("b".toList, "%(a)".toList)]),
      ("s".toList, [("c".toList, "%(b)".toList)])], []⟩
    [("a".toList, "1".toList), ("b".toList, "%(a)".toList)] (by decide)).1
  ⟨ini', D', h1, h2, h3⟩
/-- C5: when the section `DEFAULT` consists of two distinct keys `k` (value `v`) and
`u` (value `w`), in either order, and `v` contains no occurrence of the token
`%(u)`, `interpolate()` returns, leaves `k` mapped to `v`, and maps `u` to `w`
with every occurrence of `%(k)`, from left to right without overlap, replaced
by `v`. With `DEFAULT = {host: "x", url: "http://%(host)/path"}` the result
has `url == "http://x/path"` and `host == "x"`. -/
theorem C5_basic_default_interpolation (ini : Ini) (k u v w : Str) (hku : k ≠ u)
    (hD : mapFind default_section_name ini.sections = some [(k, v), (u, w)] ∨
      mapFind default_section_name ini.sections = some [(u, w), (k, v)])
    (hv : ¬ ('%' :: '(' :: u ++ [')']) <:+: v) :
    (∃ ini', interpolate ini = some ini' ∧
      ini'.get default_section_name k = some v ∧
      ini'.get default_section_name u = some (replaceAll ('%' :: '(' :: k ++ [')']) v w)) ∧
    (interpolate ⟨[("DEFAULT".toList,
        [("host".toList, "x".toList), ("url".toList, "http://%(host)/path".toList)])], []⟩
      = some ⟨[("DEFAULT".toList,
        [("host".toList, "x".toList), ("url".toList, "http://x/path".toList)])], []⟩) := by
  refine ⟨?_, by decide⟩
  have hv' : replaceAll (token u) (replaceAll (token k) v w) v = v :=
    replaceAll_of_absent (token_ne_nil u) _ hv
  have hv'' : replaceAll (token u) w v = v :=
    replaceAll_of_absent (token_ne_nil u) _ hv
  have huk : u ≠ k := fun e => hku e.symm
  have e1 : substSelf [(k, v), (u, w)] = [(k, v), (u, replaceAll (token k) v w)] := by
    simp [substSelf, substSelfAux, substInner, substPair, hku, huk, hv']
  have e2 : substSelf [(u, w), (k, v)] = [(u, replaceAll (token k) v w), (k, v)] := by
    simp [substSelf, substSelfAux, substInner, substPair, hku, huk, hv'']
  rcases hD with hD | hD
  · obtain ⟨ini', h1, h2⟩ := interpolate_default hD
    rw [e1] at h2
    refine ⟨ini', h1, ?_, ?_⟩
    · simp [Ini.get, h2, mapFind]
    · simp only [Ini.get, h2, Option.some_bind, mapFind, huk, if_false, if_true]
      rfl
  · obtain ⟨ini', h1, h2⟩ := interpolate_default hD
    rw [e2] at h2
    refine ⟨ini', h1, ?_, ?_⟩
    · simp [Ini.get, h2, mapFind, hku]
    · simp only [Ini.get, h2, Option.some_bind, mapFind, if_true]
      rfl

theorem C5_basic_default_interpolation_witness :
    ∃ ini', interpolate ⟨[("DEFAULT".toList,
        [("host".toList, "x".toList), ("url".toList, "%(host):%(host)%(".toList)])], []⟩
        = some ini' ∧
      ini'.get default_section_name "host".toList = some "x".toList ∧
      ini'.get default_section_name "url".toList
        = some (replaceAll "%(host)".toList "x".toList "%(host):%(host)%(".toList) :=
  (C5_basic_default_interpolation ⟨[("DEFAULT".toList,
        [("host".toList, "x".toList), ("url".toList, "%(host):%(host)%(".toList)])], []⟩
    "host".toList "url".toList "x".toList "%(host):%(host)%(".toList (by decide)
    (Or.inl (by decide)) (by
      rintro ⟨a, b, h⟩
      have := congrArg List.length h
      simp at this
      omega)).1

/-! ## Round trip through generate -/

theorem getlines_unlines (ls : List Str) (h : ∀ l ∈ ls, '\n' ∉ l) :
    getlines (unlines ls) = ls ++ [[]] := by
  induction ls with
  | nil => rfl
  | cons l rest ih =>
    rw [unlines_cons, getlines_line_newline (h l (List.mem_cons_self _ _)),
      ih (fun x hx => h x (List.mem_cons_of_mem _ hx))]
    rfl

theorem mapUpdate_append_new {β : Type} (d : β) (f : β → β) (k : Str) (m : List (Str × β))
    (h : ∀ x ∈ m, strLt x.1 k = true) : mapUpdate d f k m = m ++ [(k, f d)] := by
  induction m with
  | nil => rfl
  | cons x rest ih =>
    obtain ⟨k1, v⟩ := x
    have h1 : strLt k1 k = true := h (k1, v) (List.mem_cons_self _ _)
    simp only [mapUpdate, strLt_asymm h1, Bool.false_eq_true, if_false, h1, if_true,
      List.cons_append, List.cons.injEq, true_and]
    exact ih (fun y hy => h y (List.mem_cons_of_mem _ hy))

theorem mapUpdate_append_last {β : Type} (d : β) (f : β → β) (k : Str) (v : β)
    (m : List (Str × β)) (h : ∀ x ∈ m, strLt x.1 k = true) :
    mapUpdate d f k (m ++ [(k, v)]) = m ++ [(k, f v)] := by
  induction m with
  | nil => simp [mapUpdate, strLt_irrefl]
  | cons x rest ih =>
    obtain ⟨k1, w⟩ := x
    have h1 : strLt k1 k = true := h (k1, w) (List.mem_cons_self _ _)
    simp only [List.cons_append, mapUpdate, strLt_asymm h1, Bool.false_eq_true, if_false, h1,
      if_true, List.cons.injEq, true_and]
    exact ih (fun y hy => h y (List.mem_cons_of_mem _ hy))

theorem trim_sublist (raw : Str) : (trim raw).Sublist raw :=
  (rtrim_isPre _).sublist.trans (ltrim_suffix _).sublist

theorem classify_generated_pair {k v : Str} (hk : Trimmed k) (hv : Trimmed v)
    (ha : char_assign ∉ k) (hc : k.head? ≠ some char_comment)
    (hs : k.head? ≠ some char_section_start) :
    classify (k ++ char_assign :: v) = .assignment k v := by
  have htr : Trimmed (k ++ char_assign :: v) := by
    constructor
    · intro c hc'
      cases k with
      | nil =>
        simp only [List.nil_append, List.head?_cons, Option.some.injEq] at hc'
        rw [← hc']; decide
      | cons d t => exact hk.1 c (by simpa using hc')
    · intro c hc'
      rw [List.getLast?_append_of_ne_nil _ (by simp)] at hc'
      cases v with
      | nil =>
        simp only [List.getLast?_singleton, Option.some.injEq] at hc'
        rw [← hc']; decide
      | cons d t =>
        rw [List.getLast?_cons_cons] at hc'
        exact hv.2 c hc'
  have hp : ∀ x ∈ k, (fun c => c != char_assign) x = true := by
    intro x hx
    simp only [bne_iff_ne, ne_eq]
    rintro rfl
    exact ha hx
  have hkey : keyOf (k ++ char_assign :: v) = k := by
    unfold keyOf
    rw [List.takeWhile_append_of_pos hp]
    simp [List.takeWhile, rtrim_eq_self hk.2]
  have hval : valueOf (k ++ char_assign :: v) = v := by
    unfold valueOf
    rw [List.dropWhile_append_of_pos hp]
    simp [List.dropWhile, ltrim_eq_self hv.1]
  have h := @classify_assignment (k ++ char_assign :: v)
    (by rw [trim_eq_self htr]; simp)
    (by
      rw [trim_eq_self htr]
      cases k with
      | nil => simp only [List.nil_append, List.head?_cons]; decide
      | cons d t => simpa using hc)
    (by
      rw [trim_eq_self htr]
      cases k with
      | nil => simp only [List.nil_append, List.head?_cons]; decide
      | cons d t => simpa using hs)
    (by rw [trim_eq_self htr]; simp)
  rw [h, trim_eq_self htr, hkey, hval]

theorem classify_generated_header (n : Str) :
    classify (char_section_start :: n ++ [char_section_end]) = .header n := by
  have htr : Trimmed (char_section_start :: n ++ [char_section_end]) := by
    constructor
    · intro c hc
      simp only [List.cons_append, List.head?_cons, Option.some.injEq] at hc
      rw [← hc]; decide
    · intro c hc
      rw [List.getLast?_append_of_ne_nil _ (by simp)] at hc
      simp only [List.getLast?_singleton, Option.some.injEq] at hc
      rw [← hc]; decide
  unfold classify
  rw [trim_eq_self htr]
  have h1 : char_section_start ≠ char_comment := by decide
  have h2 : (char_section_start :: n ++ [char_section_end]).getLast? = some char_section_end := by
    rw [List.getLast?_append_of_ne_nil _ (by simp)]
    rfl
  simp only [List.cons_append, h1, if_false, if_true]
  rw [List.cons_append] at h2
  simp [h2, headerName]

theorem parsedPair_of_classify {raw k v : Str} (hnl : '\n' ∉ raw)
    (h : classify raw = .assignment k v) : ParsedPair k v := by
  obtain ⟨hne, hc, hs, -, rfl, rfl⟩ := classify_assignment_inv h
  have hline : '\n' ∉ trim raw := not_mem_of_sublist (trim_sublist raw) hnl
  refine ⟨trimmed_keyOf (trimmed_trim raw), trimmed_valueOf (trimmed_trim raw),
    assign_not_mem_keyOf _, ?_, ?_, ?_, ?_⟩
  · intro hk
    exact hc (head?_of_isPre (keyOf_isPre _) hk)
  · intro hk
    exact hs (head?_of_isPre (keyOf_isPre _) hk)
  · exact not_mem_of_sublist (keyOf_isPre _).sublist hline
  · exact not_mem_of_sublist (valueOf_suffix _).sublist hline

theorem no_newline_of_classify_header {raw n : Str} (hnl : '\n' ∉ raw)
    (h : classify raw = .header n) : '\n' ∉ n := by
  obtain ⟨-, -, rfl⟩ := classify_header_inv h
  have hline : '\n' ∉ trim raw := not_mem_of_sublist (trim_sublist raw) hnl
  refine not_mem_of_sublist ?_ hline
  exact (List.dropLast_sublist _).trans (List.drop_sublist _ _)

theorem applyLines_generated_pairs (pre : Sections) (n : Str) (errs : List Str)
    (hpre : ∀ x ∈ pre, strLt x.1 n = true) (ps acc : Section)
    (hs : Sorted (acc ++ ps)) (hP : ∀ kv ∈ ps, ParsedPair kv.1 kv.2) :
    applyLines (⟨pre ++ [(n, acc)], errs⟩, n)
        (ps.map (fun val => val.1 ++ char_assign :: val.2))
      = (⟨pre ++ [(n, acc ++ ps)], errs⟩, n) := by
  induction ps generalizing acc with
  | nil => simp [applyLines]
  | cons p rest ih =>
    obtain ⟨hk, hv, ha, hc, hs', -, -⟩ := hP p (List.mem_cons_self _ _)
    rw [List.map_cons, applyLines_cons, classify_generated_pair hk hv ha hc hs']
    have hacc : ∀ x ∈ acc, strLt x.1 p.1 = true := by
      intro x hx
      exact (List.pairwise_append.mp hs).2.2 x hx p (List.mem_cons_self _ _)
    have hstep : applyLine (⟨pre ++ [(n, acc)], errs⟩, n) (.assignment p.1 p.2)
        = (⟨pre ++ [(n, acc ++ [p])], errs⟩, n) := by
      simp only [applyLine]
      rw [mapUpdate_append_last _ _ _ _ _ hpre, mapUpdate_append_new _ _ _ _ hacc]
    rw [hstep, ih (acc ++ [p]) (by simpa using hs)
      (fun kv hkv => hP kv (List.mem_cons_of_mem _ hkv))]
    simp

theorem applyLines_generated_section (pre : Sections) (cur : Str) (errs : List Str)
    (sec : Str × Section) (hpre : ∀ x ∈ pre, strLt x.1 sec.1 = true)
    (hne : sec.2 ≠ []) (hs : Sorted sec.2) (hP : ∀ kv ∈ sec.2, ParsedPair kv.1 kv.2) :
    applyLines (⟨pre, errs⟩, cur) (sectionLines sec) = (⟨pre ++ [sec], errs⟩, sec.1) := by
  obtain ⟨n, ps⟩ := sec
  cases ps with
  | nil => exact absurd rfl hne
  | cons p rest =>
    obtain ⟨hk, hv, ha, hc, hs', -, -⟩ := hP p (List.mem_cons_self _ _)
    simp only [sectionLines, List.map_cons]
    rw [applyLines_cons, classify_generated_header, applyLines_cons,
      classify_generated_pair hk hv ha hc hs']
    have hstep : applyLine (applyLine (⟨pre, errs⟩, cur) (.header n)) (.assignment p.1 p.2)
        = (⟨pre ++ [(n, [p])], errs⟩, n) := by
      simp only [applyLine]
      rw [mapUpdate_append_new _ _ _ _ hpre]
      rfl
    rw [hstep, applyLines_generated_pairs pre n errs hpre rest [p] hs
      (fun kv hkv => hP kv (List.mem_cons_of_mem _ hkv))]
    rfl

theorem applyLines_generated_store (secs pre : Sections) (cur : Str) (errs : List Str)
    (hs : Sorted (pre ++ secs))
    (h : ∀ sec ∈ secs, sec.2 ≠ [] ∧ Sorted sec.2 ∧ ∀ kv ∈ sec.2, ParsedPair kv.1 kv.2) :
    (applyLines (⟨pre, errs⟩, cur) (secs.flatMap sectionLines)).1 = ⟨pre ++ secs, errs⟩ := by
  induction secs generalizing pre cur with
  | nil => simp [applyLines]
  | cons sec rest ih =>
    obtain ⟨h1, h2, h3⟩ := h sec (List.mem_cons_self _ _)
    have hpre : ∀ x ∈ pre, strLt x.1 sec.1 = true := by
      intro x hx
      exact (List.pairwise_append.mp hs).2.2 x hx sec (List.mem_cons_self _ _)
    rw [List.flatMap_cons, applyLines_append,
      applyLines_generated_section pre cur errs sec hpre h1 h2 h3,
      ih (pre ++ [sec]) sec.1 (by simpa using hs)
        (fun s hs' => h s (List.mem_cons_of_mem _ hs'))]
    simp

theorem no_newline_storeLines {ini : Ini}
    (h : ∀ sec ∈ ini.sections, '\n' ∉ sec.1 ∧ ∀ kv ∈ sec.2, ParsedPair kv.1 kv.2) :
    ∀ l ∈ storeLines ini, '\n' ∉ l := by
  intro l hl
  simp only [storeLines, List.mem_flatMap, sectionLines, List.mem_cons, List.mem_map] at hl
  obtain ⟨sec, hsec, hl | ⟨kv, hkv, rfl⟩⟩ := hl
  · subst hl
    have := (h sec hsec).1
    simp only [List.cons_append, List.mem_cons, List.mem_append, List.mem_singleton, not_or]
    exact ⟨by decide, this, by decide⟩
  · obtain ⟨-, -, -, -, -, h6, h7⟩ := (h sec hsec).2 kv hkv
    simp only [List.mem_append, List.mem_cons, not_or]
    exact ⟨h6, by decide, h7⟩

theorem parse_generate_of_parsed {S : Ini} (hwf : S.WF)
    (h : ∀ sec ∈ S.sections, '\n' ∉ sec.1 ∧ sec.2 ≠ [] ∧ ∀ kv ∈ sec.2, ParsedPair kv.1 kv.2) :
    parse Ini.empty (generate S []).2 = some ⟨S.sections, []⟩ := by
  rw [parse_eq, generate_eq]
  simp only [List.nil_append]
  rw [getlines_unlines _ (no_newline_storeLines (fun sec hsec => ⟨(h sec hsec).1,
    (h sec hsec).2.2⟩)), applyLines_append, applyLines_cons, applyLines_nil]
  have hblank : classify [] = .blank := by decide
  rw [hblank]
  simp only [applyLine, storeLines, Ini.empty]
  rw [applyLines_generated_store S.sections [] [] [] (by simpa using hwf.1)
    (fun sec hsec => ⟨(h sec hsec).2.1, hwf.2 sec hsec, (h sec hsec).2.2⟩)]
  rfl

/-- C2: for every text `t`, parsing `t` into an empty store succeeds with some
store `S`; writing `S` with `generate` to an empty stream and parsing the
output into a fresh empty store succeeds and gives exactly the section mapping
of `S` and an empty error list. -/
theorem C2_generate_parse_round_trip (t : Str) :
    ∃ S, parse Ini.empty t = some S ∧
      parse Ini.empty (generate S []).2 = some ⟨S.sections, []⟩ := by
  refine ⟨_, parse_eq _ _, ?_⟩
  apply parse_generate_of_parsed (wf_applyLines wf_empty _)
  have := @inv_applyLines ParsedPair (fun n => '\n' ∉ n) (Ini.empty, []) (getlines t)
    (fun raw hraw k v hkv => parsedPair_of_classify (not_mem_of_mem_getlines hraw) hkv)
    (fun raw hraw n hn => no_newline_of_classify_header (not_mem_of_mem_getlines hraw) hn)
    ⟨by simp, by simp [Ini.empty]⟩
  exact this.2

/-! ## End of the stream and bounds -/

/-- C13: for every text `t` and every store, parsing `t` and parsing `t` followed by one
newline give the same result (sections, errors) and leave the loop in the same
current section; the text `k=v` without a newline is stored exactly as `k=v`
followed by a newline. -/
theorem C13_final_unterminated_line (ini : Ini) (t : Str) :
    parse ini (t ++ ['\n']) = parse ini t ∧
    parseLines ini [] (getlines (t ++ ['\n'])) = parseLines ini [] (getlines t) ∧
    (∃ S, parse ini t = some S) ∧
    parse Ini.empty "k=v".toList = some ⟨[([], [("k".toList, "v".toList)])], []⟩ ∧
    parse Ini.empty "k=v\n".toList = some ⟨[([], [("k".toList, "v".toList)])], []⟩ := by
  have h : parseLines ini [] (getlines (t ++ ['\n'])) = parseLines ini [] (getlines t) := by
    rw [parseLines_eq, parseLines_eq, getlines_append_newline, applyLines_append]
    rfl
  refine ⟨?_, h, ⟨_, parse_eq _ _⟩, by decide, by decide⟩
  simp only [parse, h]

theorem header_length {line : Str} (h1 : line.head? = some char_section_start)
    (h2 : line.getLast? = some char_section_end) : 2 ≤ line.length := by
  cases line with
  | nil => simp at h1
  | cons c t =>
    cases t with
    | nil =>
      simp only [List.head?_cons, Option.some.injEq, List.getLast?_singleton] at h1 h2
      rw [h1] at h2
      exact absurd h2 (by decide)
    | cons d t' => simp

/-- C14: `parse` never fails. For every store, current section and line the loop
body returns a state, and so do the loop and `parse` on every text: the
out-of-range branch of `substr` and the empty-string branch of `front` and
`back` are never taken. The reasons: `front` and `back` are read from a line
of positive length; a line that begins with `[` and ends with `]` has length at
least 2, so `substr(1, length - 2)` is in range; a position `pos` returned by
`find_first_of` is below the length, so `substr(pos + 1, length)` is in range. -/
theorem C14_parse_never_fails (ini : Ini) (section_ : Str) :
    (∀ raw, ∃ st, parseLine ini section_ raw = some st) ∧
    (∀ raws, ∃ st, parseLines ini section_ raws = some st) ∧
    (∀ text, ∃ S, parse ini text = some S) ∧
    (∀ line : Str, 0 < line.length →
      (∃ c, front line = some c) ∧ (∃ c, back line = some c)) ∧
    (∀ line : Str, front line = some '[' → back line = some ']' →
      2 ≤ line.length ∧ ∃ name, substr line 1 (line.length - 2) = some name) ∧
    (∀ (line : Str) (pos : Nat), find_first_of '=' line = some pos →
      pos + 1 ≤ line.length ∧ (∃ variable_, substr line 0 pos = some variable_) ∧
        ∃ value, substr line (pos + 1) line.length = some value) := by
  refine ⟨fun raw => ⟨_, parseLine_eq _ _ _⟩, fun raws => ⟨_, parseLines_eq _ _ _⟩,
    fun text => ⟨_, parse_eq _ _⟩, ?_, ?_, ?_⟩
  · intro line hl
    cases line with
    | nil => simp at hl
    | cons c t =>
      refine ⟨⟨c, rfl⟩, ?_⟩
      cases hb : back (c :: t) with
      | none => simp [back] at hb
      | some b => exact ⟨b, rfl⟩
  · intro line h1 h2
    have hlen := header_length h1 h2
    exact ⟨hlen, _, substr_eq_some _ (by omega)⟩
  · intro line pos hp
    obtain ⟨h1, -, -⟩ := find_first_of_eq_some hp
    exact ⟨h1, ⟨_, substr_eq_some _ (Nat.zero_le _)⟩, ⟨_, substr_eq_some _ h1⟩⟩

theorem C14_parse_never_fails_witness :
    (2 ≤ "[]".toList.length ∧ ∃ name, substr "[]".toList 1 ("[]".toList.length - 2) = some name) ∧
    (0 + 1 ≤ "=".toList.length ∧ (∃ variable_, substr "=".toList 0 0 = some variable_) ∧
        ∃ value, substr "=".toList (0 + 1) "=".toList.length = some value) :=
  ⟨(C14_parse_never_fails Ini.empty []).2.2.2.2.1 "[]".toList (by decide) (by decide),
   (C14_parse_never_fails Ini.empty []).2.2.2.2.2 "=".toList 0 (by decide)⟩

/-! ## Which sections exist -/

theorem isSome_applyLine_iff (st : Ini × Str) (c : LineKind) (s : Str) :
    (mapFind s (applyLine st c).1.sections).isSome = true
      ↔ (mapFind s st.1.sections).isSome = true ∨ (st.2 = s ∧ ∃ k v, c = .assignment k v) := by
  obtain ⟨ini, sec⟩ := st
  rw [isSome_applyLine_merge]
  cases c with
  | blank => simp [applyLine, Ini.empty, mapFind]
  | comment => simp [applyLine, Ini.empty, mapFind]
  | badHeader => simp [applyLine, Ini.empty, mapFind]
  | header name => simp [applyLine, Ini.empty, mapFind]
  | error line => simp [applyLine, Ini.empty, mapFind]
  | assignment key value =>
    by_cases hs : s = sec
    · subst hs
      simp [applyLine, Ini.empty, mapUpdate, mapFind]
    · have hs' : ¬ sec = s := fun e => hs e.symm
      simp [applyLine, Ini.empty, mapUpdate, mapFind, hs, hs']

theorem isSome_applyLines_iff (st : Ini × Str) (raws : List Str) (s : Str) :
    (mapFind s (applyLines st raws).1.sections).isSome = true
      ↔ (mapFind s st.1.sections).isSome = true ∨
        ∃ pre raw post, raws = pre ++ raw :: post ∧ (applyLines st pre).2 = s ∧
          ∃ k v, classify raw = .assignment k v := by
  induction raws generalizing st with
  | nil => simp [applyLines]
  | cons r rest ih =>
    rw [applyLines_cons, ih, isSome_applyLine_iff]
    constructor
    · rintro ((h | ⟨h1, h2⟩) | ⟨pre, raw, post, h1, h2, h3⟩)
      · exact Or.inl h
      · exact Or.inr ⟨[], r, rest, rfl, h1, h2⟩
      · exact Or.inr ⟨r :: pre, raw, post, by rw [h1]; rfl, h2, h3⟩
    · rintro (h | ⟨pre, raw, post, h1, h2, h3⟩)
      · exact Or.inl (Or.inl h)
      · cases pre with
        | nil =>
          simp only [List.nil_append, List.cons.injEq] at h1
          obtain ⟨rfl, rfl⟩ := h1
          exact Or.inl (Or.inr ⟨h2, h3⟩)
        | cons p pre' =>
          simp only [List.cons_append, List.cons.injEq] at h1
          obtain ⟨rfl, rfl⟩ := h1
          exact Or.inr ⟨pre', raw, post, rfl, h2, h3⟩

theorem classify_assignment_iff (raw : Str) :
    (∃ k v, classify raw = .assignment k v) ↔
      trim raw ≠ [] ∧ (trim raw).head? ≠ some char_comment ∧
        (trim raw).head? ≠ some char_section_start ∧ char_assign ∈ trim raw := by
  constructor
  · rintro ⟨k, v, h⟩
    obtain ⟨h1, h2, h3, h4, -, -⟩ := classify_assignment_inv h
    exact ⟨h1, h2, h3, h4⟩
  · rintro ⟨h1, h2, h3, h4⟩
    exact ⟨_, _, classify_assignment h1 h2 h3 h4⟩

/-- C19: after parsing a text into an empty store, a section name is present in the
mapping exactly when some line of the text is an assignment line (trimmed, it
is non-empty, begins with neither `;` nor `[` and contains `=`) read while that
name was the current section, that is, the loop over the lines before it ends
with that name as current section; every section of the store has at least
one key; the text `[empty]` alone creates no section. -/
theorem C19_sections_only_through_assignments (text : Str) :
    ∃ S, parse Ini.empty text = some S ∧
      (∀ name, (mapFind name S.sections).isSome = true ↔
        ∃ pre raw post ini1, getlines text = pre ++ raw :: post ∧
          parseLines Ini.empty [] pre = some (ini1, name) ∧
          trim raw ≠ [] ∧ (trim raw).head? ≠ some ';' ∧ (trim raw).head? ≠ some '[' ∧
          '=' ∈ trim raw) ∧
      (∀ name sec, mapFind name S.sections = some sec → sec ≠ []) ∧
      (∀ sec ∈ S.sections, sec.2 ≠ []) ∧
      parse Ini.empty "[empty]".toList = some ⟨[], []⟩ := by
  have hinv := @inv_applyLines (fun _ _ => True) (fun _ => True) (Ini.empty, []) (getlines text)
    (fun _ _ _ _ _ => trivial) (fun _ _ _ _ => trivial) ⟨trivial, by simp [Ini.empty]⟩
  refine ⟨_, parse_eq _ _, ?_, ?_, ?_, by decide⟩
  · intro name
    rw [isSome_applyLines_iff]
    constructor
    · rintro (h | ⟨pre, raw, post, h1, h2, h3⟩)
      · simp [Ini.empty, mapFind] at h
      · obtain ⟨a1, a2, a3, a4⟩ := (classify_assignment_iff raw).mp h3
        refine ⟨pre, raw, post, (applyLines (Ini.empty, []) pre).1, h1, ?_, a1, a2, a3, a4⟩
        rw [parseLines_eq, ← h2]
    · rintro ⟨pre, raw, post, ini1, h1, h2, a1, a2, a3, a4⟩
      refine Or.inr ⟨pre, raw, post, h1, ?_, (classify_assignment_iff raw).mpr ⟨a1, a2, a3, a4⟩⟩
      rw [parseLines_eq] at h2
      simp only [Option.some.injEq] at h2
      rw [h2]
  · intro name sec hsec
    exact (hinv.2 _ (mem_of_mapFind hsec)).2.1
  · intro sec hsec
    exact (hinv.2 sec hsec).2.1

theorem C19_sections_only_through_assignments_witness :
    ∃ S, parse Ini.empty "[empty]\n[s]\nk=v".toList = some S ∧
      (mapFind "s".toList S.sections).isSome = true ∧
      (mapFind "empty".toList S.sections).isSome = false := by
  obtain ⟨S, h1, h2, -⟩ := C19_sections_only_through_assignments "[empty]\n[s]\nk=v".toList
  refine ⟨S, h1, ?_, ?_⟩
  · rw [h2]
    exact ⟨["[empty]".toList, "[s]".toList], "k=v".toList, [], Ini.empty, by decide, by decide,
      by decide, by decide, by decide, by decide⟩
  · have h3 : parse Ini.empty "[empty]\n[s]\nk=v".toList
        = some ⟨[("s".toList, [("k".toList, "v".toList)])], []⟩ := by decide
    rw [h3] at h1
    cases h1
    decide

/-! ## Section names -/

theorem trim_of_classify_header {raw n : Str} (h : classify raw = .header n) :
    trim raw = char_section_start :: n ++ [char_section_end] := by
  obtain ⟨h1, h2, rfl⟩ := classify_header_inv h
  have hlen := header_length h1 h2
  cases hl : trim raw with
  | nil => rw [hl] at hlen; simp at hlen
  | cons c t =>
    rw [hl] at h1 h2 hlen
    simp only [List.head?_cons, Option.some.injEq] at h1
    subst h1
    have ht : t ≠ [] := by
      rintro rfl
      simp at hlen
    obtain ⟨d, t', rfl⟩ := List.exists_cons_of_ne_nil ht
    rw [List.getLast?_cons_cons, List.getLast?_eq_getLast _ (by simp)] at h2
    simp only [Option.some.injEq] at h2
    simp only [headerName, List.drop_succ_cons, List.drop_zero, List.cons_append,
      List.cons.injEq, true_and]
    have := List.dropLast_append_getLast (l := d :: t') (by simp)
    rw [h2] at this
    simpa using this.symm

/-- C11 (as amended): after parsing a text into an empty store, every section name
present in the mapping is either the empty string or exactly the text between
the opening `[` and the closing `]` of a trimmed header line of the input; the
line is trimmed, the text inside the brackets is not, so the name keeps the
whitespace written inside the brackets. -/
theorem C11_section_names_verbatim (text : Str) :
    ∃ S, parse Ini.empty text = some S ∧
      ∀ sec ∈ S.sections,
        sec.1 = [] ∨ ∃ raw ∈ getlines text, rtrim (ltrim raw) = '[' :: sec.1 ++ [']'] := by
  refine ⟨_, parse_eq _ _, ?_⟩
  have hinv := @inv_applyLines (fun _ _ => True)
    (fun n => n = [] ∨ ∃ raw ∈ getlines text, rtrim (ltrim raw) = '[' :: n ++ [']'])
    (Ini.empty, []) (getlines text)
    (fun _ _ _ _ _ => trivial)
    (fun raw hraw n hn => Or.inr ⟨raw, hraw, trim_of_classify_header hn⟩)
    ⟨Or.inl rfl, by simp [Ini.empty]⟩
  intro sec hsec
  exact (hinv.2 sec hsec).1

theorem C11_section_names_verbatim_witness :
    ∃ S, parse Ini.empty "  [ a ]  \nk=v".toList = some S ∧
      ∀ sec ∈ S.sections,
        sec.1 = [] ∨ ∃ raw ∈ getlines "  [ a ]  \nk=v".toList,
          rtrim (ltrim raw) = '[' :: sec.1 ++ [']'] :=
  C11_section_names_verbatim "  [ a ]  \nk=v".toList

/-- C11 (as stated) fails: the header `[ a ]` followed by `k=v` creates the section
named ` a `, which begins and ends with a space. -/
theorem C11_section_names_trimmed_counterexample :
    parse Ini.empty "[ a ]\nk=v".toList
        = some ⟨[(" a ".toList, [("k".toList, "v".toList)])], []⟩ ∧
      " a ".toList.head? = some ' ' ∧ " a ".toList.getLast? = some ' ' ∧
      isspace ' ' = true := by
  decide

/-! ## Termination and frame of interpolate -/

theorem interpolate_of_no_default {ini : Ini}
    (hD : mapFind default_section_name ini.sections = none) :
    interpolate ini
      = some ⟨ini.sections.map
          (fun sec : Str × Section =>
            if sec.1 ≠ default_section_name then (sec.1, substSelf sec.2) else sec),
          ini.errors⟩ := by
  simp only [interpolate, hD, interpolateSections_eq]

theorem substInner_keys (srcval : Str × Str) (dst : Section) :
    (substInner srcval dst).map Prod.fst = dst.map Prod.fst := by
  simp only [substInner, List.map_map]
  apply List.map_congr_left
  intro val _
  simp only [Function.comp, substPair]
  split_ifs <;> rfl

theorem substFrom_keys (src dst : Section) :
    (substFrom src dst).map Prod.fst = dst.map Prod.fst := by
  induction src generalizing dst with
  | nil => rfl
  | cons srcval src ih =>
    have : substFrom (srcval :: src) dst = substFrom src (substInner srcval dst) := rfl
    rw [this, ih, substInner_keys]

theorem substSelfAux_keys (n i : Nat) (sec : Section) :
    (substSelfAux n i sec).map Prod.fst = sec.map Prod.fst := by
  induction n generalizing i sec with
  | zero => rfl
  | succ n ih =>
    simp only [substSelfAux]
    cases sec.get? i with
    | none => rfl
    | some srcval => simp only [ih, substInner_keys]

theorem substSelf_keys (sec : Section) : (substSelf sec).map Prod.fst = sec.map Prod.fst :=
  substSelfAux_keys _ _ _

theorem mapSet_keys {β : Type} (k : Str) (v : β) (m : List (Str × β)) :
    (mapSet k v m).map Prod.fst = m.map Prod.fst := by
  induction m with
  | nil => rfl
  | cons x rest ih =>
    simp only [mapSet]
    split_ifs
    · rfl
    · simp only [List.map_cons, ih]

theorem mapSet_of_mapFind {β : Type} {k : Str} {v : β} {m : List (Str × β)}
    (h : mapFind k m = some v) : mapSet k v m = m := by
  induction m with
  | nil => rfl
  | cons x rest ih =>
    obtain ⟨k1, w⟩ := x
    simp only [mapFind] at h
    simp only [mapSet]
    split_ifs at h ⊢ with hk
    · cases h; rfl
    · rw [ih h]

theorem interpol_isPre_token (key : Str) :
    [char_interpol, char_interpol_start] <+: token key :=
  ⟨key ++ [char_interpol_end], rfl⟩

theorem token_absent {key s : Str} (h : ¬ [char_interpol, char_interpol_start] <:+: s) :
    ¬ token key <:+: s :=
  fun ht => h ((interpol_isPre_token key).isInfix.trans ht)

theorem substPair_of_absent (srcval : Str × Str) {val : Str × Str}
    (h : ¬ [char_interpol, char_interpol_start] <:+: val.2) : substPair srcval val = val := by
  simp only [substPair]
  split_ifs
  · rw [replaceAll_of_absent (token_ne_nil _) _ (token_absent h)]
  · rfl

theorem substInner_of_absent (srcval : Str × Str) {dst : Section}
    (h : ∀ kv ∈ dst, ¬ [char_interpol, char_interpol_start] <:+: kv.2) :
    substInner srcval dst = dst := by
  simp only [substInner]
  conv_rhs => rw [← List.map_id dst]
  apply List.map_congr_left
  intro val hval
  exact substPair_of_absent srcval (h val hval)

theorem substFrom_of_absent (src : Section) {dst : Section}
    (h : ∀ kv ∈ dst, ¬ [char_interpol, char_interpol_start] <:+: kv.2) :
    substFrom src dst = dst := by
  induction src with
  | nil => rfl
  | cons srcval src ih =>
    have : substFrom (srcval :: src) dst = substFrom src (substInner srcval dst) := rfl
    rw [this, substInner_of_absent srcval h, ih]

theorem substSelfAux_of_absent (n i : Nat) {sec : Section}
    (h : ∀ kv ∈ sec, ¬ [char_interpol, char_interpol_start] <:+: kv.2) :
    substSelfAux n i sec = sec := by
  induction n generalizing i with
  | zero => rfl
  | succ n ih =>
    simp only [substSelfAux]
    cases sec.get? i with
    | none => rfl
    | some srcval => simp only [substInner_of_absent srcval h, ih]

theorem substSelf_of_absent {sec : Section}
    (h : ∀ kv ∈ sec, ¬ [char_interpol, char_interpol_start] <:+: kv.2) :
    substSelf sec = sec :=
  substSelfAux_of_absent _ _ h

/-- C20: substitution terminates. For every string, every non-empty `from_` and
every `to_` (also one that contains `from_`, also the empty one) the loop of
`replace` returns, with the fuel `str.length + 1` of `replace` and with any
larger fuel; every token `%(key)` built by `interpolate` has length at least 3;
hence the two forms of `interpolate(src, dst)` and `interpolate()` return on
every store, including the self-referential `k: "%(k)"` and the mutually
referential `a: "%(b)"`, `b: "%(a)"`. -/
theorem C20_substitution_terminates :
    (∀ str from_ to_ : Str, from_ ≠ [] →
      ∃ r, replace str from_ to_ = some r ∧
        ∀ fuel, str.length < fuel → replaceLoop from_ to_ fuel str 0 = some r) ∧
    (∀ key : Str, 3 ≤ (token key).length ∧ token key ≠ []) ∧
    (∀ (srcval : Str × Str) (dst : Section), ∃ r, interpolateInner srcval dst = some r) ∧
    (∀ src dst : Section, ∃ r, interpolateFrom src dst = some r) ∧
    (∀ sec : Section, ∃ r, interpolateSelf sec = some r) ∧
    (∀ ini : Ini, ∃ ini', interpolate ini = some ini') ∧
    interpolate ⟨[("DEFAULT".toList, [("k".toList, "%(k)".toList)])], []⟩
      = some ⟨[("DEFAULT".toList, [("k".toList, "%(k)".toList)])], []⟩ ∧
    interpolate ⟨[("DEFAULT".toList, [("a".toList, "%(b)".toList),
        ("b".toList, "%(a)".toList)])], []⟩
      = some ⟨[("DEFAULT".toList, [("a".toList, "%(b)".toList),
        ("b".toList, "%(b)".toList)])], []⟩ ∧
    replace "axa".toList "x".toList "xx".toList = some "axxa".toList ∧
    replace "axa".toList "x".toList [] = some "aa".toList := by
  refine ⟨?_, ?_, fun srcval dst => ⟨_, interpolateInner_eq _ _⟩,
    fun src dst => ⟨_, interpolateFrom_eq _ _⟩, fun sec => ⟨_, interpolateSelf_eq _⟩, ?_,
    by decide, by decide, by decide, by decide⟩
  · intro str from_ to_ hf
    refine ⟨_, replace_eq hf str to_, ?_⟩
    intro fuel hfuel
    have := replaceLoop_eq to_ hf fuel [] str hfuel
    simpa using this
  · intro key
    exact ⟨by simp [token], token_ne_nil key⟩
  · intro ini
    cases hD : mapFind default_section_name ini.sections with
    | none => exact ⟨_, interpolate_of_no_default hD⟩
    | some D => exact ⟨_, interpolate_of_default hD⟩

theorem C20_substitution_terminates_witness :
    ∃ r, replace "%(k)%(k)".toList "%(k)".toList "<%(k)>".toList = some r ∧
      ∀ fuel, "%(k)%(k)".toList.length < fuel →
        replaceLoop "%(k)".toList "<%(k)>".toList fuel "%(k)%(k)".toList 0 = some r :=
  C20_substitution_terminates.1 "%(k)%(k)".toList "%(k)".toList "<%(k)>".toList (by decide)

/-- C15: `interpolate()` returns and only rewrites values: the section names, in
order, the keys of every section, in order, and the error list are those of
the store before the call; when no value of the store contains the two
characters `%(`, the store is returned unchanged. -/
theorem C15_interpolate_rewrites_values_only (ini : Ini) :
    ∃ ini', interpolate ini = some ini' ∧
      ini'.sections.map Prod.fst = ini.sections.map Prod.fst ∧
      ini'.sections.map (fun sec => sec.2.map Prod.fst)
        = ini.sections.map (fun sec => sec.2.map Prod.fst) ∧
      ini'.errors = ini.errors ∧
      ((∀ sec ∈ ini.sections, ∀ kv ∈ sec.2, ¬ ['%', '('] <:+: kv.2) → ini' = ini) := by
  cases hD : mapFind default_section_name ini.sections with
  | none =>
    refine ⟨_, interpolate_of_no_default hD, ?_, ?_, rfl, ?_⟩
    · simp only [List.map_map]
      apply List.map_congr_left
      intro sec _
      simp only [Function.comp]
      split_ifs <;> rfl
    · simp only [List.map_map]
      apply List.map_congr_left
      intro sec _
      simp only [Function.comp]
      split_ifs
      · exact substSelf_keys _
      · rfl
    · intro h
      have : ini.sections.map (fun sec : Str × Section =>
            if sec.1 ≠ default_section_name then (sec.1, substSelf sec.2) else sec)
          = ini.sections := by
        conv_rhs => rw [← List.map_id ini.sections]
        apply List.map_congr_left
        intro sec hsec
        simp only [id]
        split_ifs
        · rw [substSelf_of_absent (h sec hsec)]
        · rfl
      rw [this]
  | some D =>
    refine ⟨_, interpolate_of_default hD, ?_, ?_, rfl, ?_⟩
    · simp only [List.map_map]
      rw [← mapSet_keys default_section_name (substSelf D) ini.sections]
      apply List.map_congr_left
      intro sec _
      simp only [Function.comp]
      split_ifs <;> rfl
    · have hset : ∀ m : Sections, mapFind default_section_name m = some D ∨
            mapFind default_section_name m = none →
          (mapSet default_section_name (substSelf D) m).map (fun sec => sec.2.map Prod.fst)
            = m.map (fun sec => sec.2.map Prod.fst) := by
        intro m
        induction m with
        | nil => intro _; rfl
        | cons x rest ih =>
          obtain ⟨k1, w⟩ := x
          intro hm
          simp only [mapFind, mapSet] at hm ⊢
          split_ifs at hm ⊢ with hk
          · rcases hm with hm | hm
            · cases hm
              simp only [List.map_cons, substSelf_keys]
            · cases hm
          · simp only [List.map_cons, ih hm]
      simp only [List.map_map]
      rw [← hset ini.sections (Or.inl hD)]
      apply List.map_congr_left
      intro sec _
      simp only [Function.comp]
      split_ifs
      · rw [substFrom_keys, substSelf_keys]
      · rfl
    · intro h
      have hDabs : ∀ kv ∈ D, ¬ [char_interpol, char_interpol_start] <:+: kv.2 :=
        h _ (mem_of_mapFind hD)
      rw [substSelf_of_absent hDabs, mapSet_of_mapFind hD]
      have : ini.sections.map (fun sec : Str × Section =>
            if sec.1 ≠ default_section_name then (sec.1, substFrom D (substSelf sec.2))
            else sec)
          = ini.sections := by
        conv_rhs => rw [← List.map_id ini.sections]
        apply List.map_congr_left
        intro sec hsec
        simp only [id]
        split_ifs
        · rw [substSelf_of_absent (h sec hsec), substFrom_of_absent D (h sec hsec)]
        · rfl
      rw [this]

theorem C15_interpolate_rewrites_values_only_witness :
    interpolate ⟨[("DEFAULT".toList, [("a".toList, "%x".toList)]),
        ("s".toList, [("b".toList, "(%)".toList)])], ["e".toList]⟩
      = some ⟨[("DEFAULT".toList, [("a".toList, "%x".toList)]),
        ("s".toList, [("b".toList, "(%)".toList)])], ["e".toList]⟩ := by
  obtain ⟨ini', h1, -, -, -, h2⟩ := C15_interpolate_rewrites_values_only
    ⟨[("DEFAULT".toList, [("a".toList, "%x".toList)]),
      ("s".toList, [("b".toList, "(%)".toList)])], ["e".toList]⟩
  rw [h1, h2]
  intro sec hsec kv hkv
  simp only [List.mem_cons, List.mem_singleton, List.not_mem_nil, or_false] at hsec
  rcases hsec with rfl | rfl
  · simp only [List.mem_singleton] at hkv
    subst hkv
    decide
  · simp only [List.mem_singleton] at hkv
    subst hkv
    decide

/-! ## What one call of interpolate resolves -/

theorem replaceAll_self {from_ : Str} (hf : from_ ≠ []) (to_ : Str) :
    replaceAll from_ to_ from_ = to_ := by
  obtain ⟨c, t, rfl⟩ := List.exists_cons_of_ne_nil hf
  have hp : (c :: t).isPrefixOf (c :: t) = true :=
    List.isPrefixOf_iff_prefix.mpr (List.prefix_refl _)
  simp only [replaceAll, replaceAllAux, hp, if_true]
  rw [replaceAllAux_skip]
  simp [replaceAllAux]

/-- C12 (as amended): inside one call of `replace` inserted text is not scanned
again: replacing the value `%(k)` by any text `t` gives exactly `t`, whatever
tokens `t` contains. But `interpolate()` applies the pairs of a section one
after the other, in key order, to the current values, so a token `%(j)`
inserted by the pair of `k` is substituted by the later pass of `j` when `j`
comes after `k`: when `DEFAULT` is `a: "%(b)"`, `b: x`, `c: "%(a)"` (distinct
keys, in this order, `x` containing neither `%(a)` nor `%(c)`), the three
values all end as `x`. -/
theorem C12_later_pairs_resolve_inserted_tokens (ini : Ini) (a b c x : Str)
    (hab : a ≠ b) (hac : a ≠ c) (hbc : b ≠ c)
    (hD : mapFind default_section_name ini.sections
      = some [(a, '%' :: '(' :: b ++ [')']), (b, x), (c, '%' :: '(' :: a ++ [')'])])
    (hxa : ¬ ('%' :: '(' :: a ++ [')']) <:+: x)
    (hxc : ¬ ('%' :: '(' :: c ++ [')']) <:+: x) :
    (∀ k t : Str, replace ('%' :: '(' :: k ++ [')']) ('%' :: '(' :: k ++ [')']) t = some t) ∧
    ∃ ini', interpolate ini = some ini' ∧
      mapFind default_section_name ini'.sections = some [(a, x), (b, x), (c, x)] := by
  refine ⟨fun k t => ?_, ?_⟩
  · have := replace_eq (token_ne_nil k) (token k) t
    rw [replaceAll_self (token_ne_nil k)] at this
    exact this
  · obtain ⟨ini', h1, h2⟩ := interpolate_default hD
    refine ⟨ini', h1, ?_⟩
    rw [h2]
    have hba : b ≠ a := fun e => hab e.symm
    have hca : c ≠ a := fun e => hac e.symm
    have hcb : c ≠ b := fun e => hbc e.symm
    have e1 : replaceAll (token a) (token b) x = x :=
      replaceAll_of_absent (token_ne_nil a) _ hxa
    have e2 : replaceAll (token c) x x = x :=
      replaceAll_of_absent (token_ne_nil c) _ hxc
    have e3 : replaceAll (token a) (token b) (token a) = token b :=
      replaceAll_self (token_ne_nil a) _
    have e4 : replaceAll (token b) x (token b) = x :=
      replaceAll_self (token_ne_nil b) _
    have t1 : ∀ k : Str, '%' :: '(' :: k ++ [')'] = token k := fun _ => rfl
    simp only [t1, substSelf, substSelfAux, substInner, substPair, List.length_cons,
      List.length_nil, List.get?_cons_zero, List.get?_cons_succ, List.map_cons, List.map_nil,
      ne_eq, Prod.mk.injEq, hab, hac, hbc, hba, hca, hcb, false_and, not_false_eq_true,
      if_true, not_true_eq_false, if_false, and_self, and_true, true_and, e1, e2, e3, e4]

theorem C12_later_pairs_resolve_inserted_tokens_witness :
    ∃ ini', interpolate ⟨[("DEFAULT".toList, [("a".toList, "%(b)".toList),
        ("b".toList, "x".toList), ("c".toList, "%(a)".toList)])], []⟩ = some ini' ∧
      mapFind default_section_name ini'.sections
        = some [("a".toList, "x".toList), ("b".toList, "x".toList), ("c".toList, "x".toList)] :=
  (C12_later_pairs_resolve_inserted_tokens
    ⟨[("DEFAULT".toList, [("a".toList, "%(b)".toList),
        ("b".toList, "x".toList), ("c".toList, "%(a)".toList)])], []⟩
    "a".toList "b".toList "c".toList "x".toList (by decide) (by decide) (by decide) (by decide)
    (by
      rintro ⟨p, q, h⟩
      have := congrArg List.length h
      simp at this
      omega)
    (by
      rintro ⟨p, q, h⟩
      have := congrArg List.length h
      simp at this
      omega)).2

/-- C12 (as stated) fails: with `DEFAULT = {a: "%(b)", b: "x", c: "%(a)"}` the pass
of `a` inserts `%(b)` into the value of `c`, and the pass of `b`, in the same
call, substitutes it: `c` ends as `x`, which does not contain `%(b)`. -/
theorem C12_no_re_resolution_counterexample :
    interpolateInner ("a".toList, "%(b)".toList)
        [("a".toList, "%(b)".toList), ("b".toList, "x".toList), ("c".toList, "%(a)".toList)]
      = some [("a".toList, "%(b)".toList), ("b".toList, "x".toList),
          ("c".toList, "%(b)".toList)] ∧
    interpolate ⟨[("DEFAULT".toList, [("a".toList, "%(b)".toList),
        ("b".toList, "x".toList), ("c".toList, "%(a)".toList)])], []⟩
      = some ⟨[("DEFAULT".toList, [("a".toList, "x".toList),
        ("b".toList, "x".toList), ("c".toList, "x".toList)])], []⟩ ∧
    find "%(b)".toList "x".toList 0 = none := by
  decide

/-- C17 (as amended): the skip compares pairs by key and value. When a source pair
`(k, v)` is applied to a section `S` (the inner loop of `interpolate(src, dst)`
and `interpolate(src, dst)` for a one-pair source), every pair of `S` that
differs from `(k, v)` in its key or in its value has each occurrence of `%(k)`
in its value replaced by `v`, and a pair of `S` equal to `(k, v)` in key and
value is left as it is, whether or not it is the same entry. With
`DEFAULT = {k: "a%(k)"}`, the section `{k: "b%(k)"}` ends with
`k = "ba%(k)"`. -/
theorem C17_skip_compares_key_and_value (k v : Str) (S : Section) :
    interpolateInner (k, v) S
      = some (S.map (fun val =>
          if val = (k, v) then val
          else (val.1, replaceAll ('%' :: '(' :: k ++ [')']) v val.2))) ∧
    interpolateFrom [(k, v)] S
      = some (S.map (fun val =>
          if val = (k, v) then val
          else (val.1, replaceAll ('%' :: '(' :: k ++ [')']) v val.2))) ∧
    interpolate ⟨[("DEFAULT".toList, [("k".toList, "a%(k)".toList)]),
        ("S".toList, [("k".toList, "b%(k)".toList)])], []⟩
      = some ⟨[("DEFAULT".toList, [("k".toList, "a%(k)".toList)]),
        ("S".toList, [("k".toList, "ba%(k)".toList)])], []⟩ := by
  have h : substInner (k, v) S
      = S.map (fun val =>
          if val = (k, v) then val
          else (val.1, replaceAll ('%' :: '(' :: k ++ [')']) v val.2)) := by
    simp only [substInner]
    apply List.map_congr_left
    intro val _
    simp only [substPair, ne_eq, ite_not]
    rfl
  refine ⟨?_, ?_, by decide⟩
  · rw [interpolateInner_eq, h]
  · rw [interpolateFrom_eq]
    show some (substInner (k, v) S) = _
    rw [h]

/-- C17 (as stated) fails: with `DEFAULT = {k: "a%(k)"}` and `S = {k: "a%(k)"}` the
pair of `S` equals the pair of `DEFAULT`, so it is skipped and `S.k` stays
`a%(k)`, although replacing `%(k)` by `a%(k)` in it would give `aa%(k)`. -/
theorem C17_self_skip_counterexample :
    interpolate ⟨[("DEFAULT".toList, [("k".toList, "a%(k)".toList)]),
        ("S".toList, [("k".toList, "a%(k)".toList)])], []⟩
      = some ⟨[("DEFAULT".toList, [("k".toList, "a%(k)".toList)]),
        ("S".toList, [("k".toList, "a%(k)".toList)])], []⟩ ∧
    replace "a%(k)".toList "%(k)".toList "a%(k)".toList = some "aa%(k)".toList := by
  decide

/-! ## Scalar extraction -/

/-- C16: `extract` of the string `true` into a boolean destination returns success
and sets the destination to `true`, whatever it held; `extract` of the string
`abc` into an integer destination returns failure; `extract` of any string
into a string destination returns success and sets the destination to exactly
that string. -/
theorem C16_scalar_extraction :
    (∀ dst : Bool, extract istream_bool "true".toList dst = (true, true)) ∧
    (∀ dst : Int, (extract istream_int "abc".toList dst).1 = false) ∧
    (∀ value dst : Str, extract_string value dst = (true, value)) := by
  refine ⟨by decide, fun dst => ?_, fun _ _ => rfl⟩
  rfl

/-! ## Shadowing of DEFAULT by the keys of a section -/

theorem sorted_nodup_keys {β : Type} {m : List (Str × β)} (h : Sorted m) :
    (m.map Prod.fst).Nodup := by
  rw [List.Nodup, List.pairwise_map]
  exact List.Pairwise.imp (fun hab => strLt_ne hab) h

theorem mapFind_of_mem_nodup {β : Type} {m : List (Str × β)} {k : Str} {v : β}
    (hnd : (m.map Prod.fst).Nodup) (h : (k, v) ∈ m) : mapFind k m = some v := by
  induction m with
  | nil => simp at h
  | cons x rest ih =>
    obtain ⟨k1, w⟩ := x
    simp only [List.map_cons, List.nodup_cons] at hnd
    simp only [mapFind]
    rcases List.mem_cons.mp h with h' | h'
    · cases h'
      simp
    · have hne : k ≠ k1 := by
        rintro rfl
        exact hnd.1 (List.mem_map_of_mem Prod.fst h')
      simp only [hne, if_false]
      exact ih hnd.2 h'

theorem keys_get?_ne {sec : Section} {i p : Nat} {j x k y : Str}
    (hnd : (sec.map Prod.fst).Nodup) (hi : sec.get? i = some (j, x))
    (hp : sec.get? p = some (k, y)) (hne : i ≠ p) : j ≠ k := by
  rintro rfl
  have h1 : (sec.map Prod.fst)[i]? = some j := by
    rw [List.getElem?_map, ← List.get?_eq_getElem?, hi]; rfl
  have h2 : (sec.map Prod.fst)[p]? = some j := by
    rw [List.getElem?_map, ← List.get?_eq_getElem?, hp]; rfl
  have hlt : i < (sec.map Prod.fst).length := by
    rw [List.length_map]
    exact (List.get?_eq_some.mp hi).1
  exact hne (List.getElem?_inj hlt hnd (h1.trans h2.symm))

theorem substInner_get? (srcval : Str × Str) (sec : Section) (p : Nat) :
    (substInner srcval sec).get? p = (sec.get? p).map (substPair srcval) := by
  simp only [substInner, List.get?_eq_getElem?, List.getElem?_map]

theorem substSelfAux_keeps {u v : Str} (hv : ¬ [char_interpol, char_interpol_start] <:+: v)
    (pu n i : Nat) (sec : Section) (h : sec.get? pu = some (u, v)) :
    (substSelfAux n i sec).get? pu = some (u, v) := by
  induction n generalizing i sec with
  | zero => exact h
  | succ n ih =>
    simp only [substSelfAux]
    cases sec.get? i with
    | none => exact h
    | some srcval =>
      apply ih
      rw [substInner_get?, h, Option.map_some', substPair_of_absent srcval hv]

theorem sorted_get?_lt {m : Section} (hs : Sorted m) {i p : Nat} {a b : Str × Str}
    (hi : m.get? i = some a) (hp : m.get? p = some b) (hlt : i < p) :
    strLt a.1 b.1 = true := by
  obtain ⟨h1, e1⟩ := List.get?_eq_some.mp hi
  obtain ⟨h2, e2⟩ := List.get?_eq_some.mp hp
  have := (List.pairwise_iff_getElem.mp hs) i p h1 h2 hlt
  rw [← e1, ← e2]
  simpa using this

theorem substSelfAux_shadow {k u v : Str} (hku : u ≠ k)
    (hv : ¬ [char_interpol, char_interpol_start] <:+: v) (keys : List Str) (hnd : keys.Nodup)
    (pk pu : Nat)
    (hno : ∀ i j, i < pk → keys.get? i = some j → j ≠ u → ¬ token j <:+: token k)
    (n i : Nat) (sec : Section) (hkeys : sec.map Prod.fst = keys)
    (hk : sec.get? pk = some (k, v)) (hu : sec.get? pu = some (u, token k))
    (hi : i ≤ pk) (hn : pk < i + n) :
    (substSelfAux n i sec).get? pu = some (u, v) := by
  induction n generalizing i sec with
  | zero => omega
  | succ n ih =>
    simp only [substSelfAux]
    have hpk : pk < sec.length := (List.get?_eq_some.mp hk).1
    cases hs : sec.get? i with
    | none =>
      have := List.get?_eq_none.mp hs
      omega
    | some srcval =>
      simp only
      obtain ⟨j, x⟩ := srcval
      by_cases hik : i = pk
      · subst hik
        rw [hk] at hs
        cases hs
        apply substSelfAux_keeps hv
        rw [substInner_get?, hu, Option.map_some']
        simp only [substPair, ne_eq, Prod.mk.injEq, hku, false_and, not_false_eq_true, if_true,
          replaceAll_self (token_ne_nil _)]
      · apply ih (i + 1) (substInner (j, x) sec)
        · rw [substInner_keys, hkeys]
        · rw [substInner_get?, hk, Option.map_some', substPair_of_absent _ hv]
        · rw [substInner_get?, hu, Option.map_some']
          by_cases hiu : i = pu
          · subst hiu
            rw [hu] at hs
            cases hs
            simp [substPair]
          · have hju : j ≠ u := by
              subst hkeys
              exact keys_get?_ne hnd hs hu hiu
            have hjkey : keys.get? i = some j := by
              rw [← hkeys, List.get?_eq_getElem?, List.getElem?_map, ← List.get?_eq_getElem?, hs]
              rfl
            have := replaceAll_of_absent (token_ne_nil j) x
              (hno i j (by omega) hjkey hju)
            simp only [substPair, this]
            split_ifs <;> rfl
        · omega
        · omega

theorem substFrom_keeps {u v : Str} (hv : ¬ [char_interpol, char_interpol_start] <:+: v)
    (src dst : Section) (h : (u, v) ∈ dst) : (u, v) ∈ substFrom src dst := by
  induction src generalizing dst with
  | nil => exact h
  | cons srcval src ih =>
    have : substFrom (srcval :: src) dst = substFrom src (substInner srcval dst) := rfl
    rw [this]
    apply ih
    have := List.mem_map_of_mem (substPair srcval) h
    rw [substPair_of_absent srcval hv] at this
    exact this

theorem mapFind_interpolate_section {ini : Ini} {D S : Section} {name : Str}
    (hname : name ≠ default_section_name)
    (hD : mapFind default_section_name ini.sections = some D)
    (hS : mapFind name ini.sections = some S) :
    ∃ ini', interpolate ini = some ini' ∧
      mapFind name ini'.sections = some (substFrom (substSelf D) (substSelf S)) := by
  refine ⟨_, interpolate_of_default hD, ?_⟩
  simp only
  rw [mapFind_map_values _ (interpolate_step_fst _), mapFind_mapSet_ne hname, hS]
  simp [hname]

/-- C18 (as amended): when the store has a section `DEFAULT` mapping `k` to some `v'`
and another section, with its keys in ascending order, that maps `k` to a
value `v` without `%(` and another key `u` to exactly `%(k)`, and no key `j` of
that section that sorts before `k`, other than `u`, has its token `%(j)`
occurring inside the token `%(k)`, then `interpolate()` returns and the
section maps `u` to `v`, its own value, whatever else the section and
`DEFAULT` contain; keys that sort after `k` are not restricted. -/
theorem C18_section_keys_shadow_default (ini : Ini) (name k u v v' : Str) (D S : Section)
    (hname : name ≠ default_section_name)
    (hD : mapFind default_section_name ini.sections = some D)
    (_hDk : mapFind k D = some v')
    (hS : mapFind name ini.sections = some S) (hsorted : Sorted S)
    (hk : mapFind k S = some v)
    (hu : mapFind u S = some ('%' :: '(' :: k ++ [')'])) (hku : u ≠ k)
    (hv : ¬ ['%', '('] <:+: v)
    (hno : ∀ j x, (j, x) ∈ S → strLt j k = true → j ≠ u →
      ¬ ('%' :: '(' :: j ++ [')']) <:+: ('%' :: '(' :: k ++ [')'])) :
    ∃ ini', interpolate ini = some ini' ∧ ini'.get name u = some v := by
  obtain ⟨ini', h1, h2⟩ := mapFind_interpolate_section hname hD hS
  refine ⟨ini', h1, ?_⟩
  have hnd := sorted_nodup_keys hsorted
  obtain ⟨pk, hpk⟩ := List.mem_iff_get?.mp (mem_of_mapFind hk)
  obtain ⟨pu, hpu⟩ := List.mem_iff_get?.mp (mem_of_mapFind hu)
  have hno' : ∀ i j, i < pk → (S.map Prod.fst).get? i = some j → j ≠ u →
      ¬ token j <:+: token k := by
    intro i j hi hj
    rw [List.get?_eq_getElem?, List.getElem?_map, ← List.get?_eq_getElem?] at hj
    cases hsi : S.get? i with
    | none => rw [hsi] at hj; cases hj
    | some a =>
      rw [hsi] at hj
      simp only [Option.map_some', Option.some.injEq] at hj
      subst hj
      exact hno a.1 a.2 (List.get?_mem hsi) (sorted_get?_lt hsorted hsi hpk hi)
  have hself : (substSelf S).get? pu = some (u, v) :=
    substSelfAux_shadow hku hv (S.map Prod.fst) hnd pk pu hno' S.length 0 S rfl hpk hpu
      (Nat.zero_le _) (by
        have := (List.get?_eq_some.mp hpk).1
        omega)
  have hmem : (u, v) ∈ substFrom (substSelf D) (substSelf S) :=
    substFrom_keeps hv _ _ (List.get?_mem hself)
  have hnd' : ((substFrom (substSelf D) (substSelf S)).map Prod.fst).Nodup := by
    rw [substFrom_keys, substSelf_keys]
    exact hnd
  simp only [Ini.get, h2, Option.some_bind]
  exact mapFind_of_mem_nodup hnd' hmem

/-- C18 (as stated) fails: in the section `s = {j: "zz", u: "%(x%(j))", x%(j): "v"}`
the key `k = x%(j)` has the value `v` without `%(` and `u` holds exactly `%(k)`,
but the pass of `j`, which comes first, rewrites the `%(j)` inside the value of
`u`, so `u` ends as `%(xzz)` and not as `v`. -/
theorem C18_shadow_counterexample :
    interpolate ⟨[("DEFAULT".toList, [("x%(j)".toList, "w".toList)]),
        ("s".toList, [("j".toList, "zz".toList), ("u".toList, "%(x%(j))".toList),
          ("x%(j)".toList, "v".toList)])], []⟩
      = some ⟨[("DEFAULT".toList, [("x%(j)".toList, "w".toList)]),
        ("s".toList, [("j".toList, "zz".toList), ("u".toList, "%(xzz)".toList),
          ("x%(j)".toList, "v".toList)])], []⟩ ∧
    "%(x%(j))".toList = '%' :: '(' :: "x%(j)".toList ++ [')'] ∧
    find "%(".toList "v".toList 0 = none ∧
    strLt "j".toList "u".toList = true ∧ strLt "u".toList "x%(j)".toList = true := by
  decide

theorem C18_section_keys_shadow_default_witness :
    (∃ ini', interpolate ⟨[("DEFAULT".toList, [("a%(z)".toList, "D".toList)]),
        ("s".toList, [("a%(z)".toList, "v".toList), ("b".toList, "%(a%(z))".toList),
          ("z".toList, "zz".toList)])], []⟩ = some ini' ∧
      ini'.get "s".toList "b".toList = some "v".toList) ∧
    "%(z)".toList <:+: "%(a%(z))".toList ∧ strLt "a%(z)".toList "z".toList = true :=
  ⟨C18_section_keys_shadow_default
    ⟨[("DEFAULT".toList, [("a%(z)".toList, "D".toList)]),
      ("s".toList, [("a%(z)".toList, "v".toList), ("b".toList, "%(a%(z))".toList),
        ("z".toList, "zz".toList)])], []⟩
    "s".toList "a%(z)".toList "b".toList "v".toList "D".toList
    [("a%(z)".toList, "D".toList)]
    [("a%(z)".toList, "v".toList), ("b".toList, "%(a%(z))".toList), ("z".toList, "zz".toList)]
    (by decide) (by decide) (by decide) (by decide)
    (by unfold Sorted; decide)
    (by decide) (by decide) (by decide)
    (by decide)
    (by
      intro j x hjx hlt hju
      simp only [List.mem_cons, Prod.mk.injEq, List.mem_singleton, List.not_mem_nil,
        or_false] at hjx
      rcases hjx with ⟨rfl, -⟩ | ⟨rfl, -⟩ | ⟨rfl, -⟩
      · exact absurd hlt (by decide)
      · exact absurd rfl hju
      · exact absurd hlt (by decide)),
   by decide, by decide⟩

theorem extract_examples :
    extract istream_int " 42 ".toList 0 = (true, 42) ∧
    extract istream_int "-7".toList 0 = (true, -7) ∧
    extract istream_int "42x".toList 0 = (false, 42) ∧
    extract istream_int "99999999999".toList 0 = (false, 2147483647) ∧
    extract istream_int "".toList 5 = (false, 5) ∧
    extract istream_bool "false".toList true = (true, false) ∧
    extract istream_bool "1".toList true = (false, false) ∧
    extract istream_bool "true x".toList false = (false, true) := by
  decide

end inipp
